import Mathlib

/-!
Verification of the procedural maze generator of `zombie_maze.cpp` (class `Level`).

The generator is embedded shallowly: the grid is a `List (List Nat)` mirroring
`std::vector<std::vector<int>>` (`0` = floor, `1` = wall), and every loop of the
source is a fuel-indexed recursive function returning `Option` (so that the
unbounded rejection-sampling loops of the source are modelled honestly: `none`
models non-termination within the given fuel).  Each `std::mt19937` instance the
source constructs from `std::random_device` is modelled as an abstract stream of
raw draws; `std::uniform_int_distribution<>(lo, hi)(gen)` becomes
`lo + draw % (hi + 1 - lo)`, and `std::shuffle` of the four directions becomes a
stream-selected permutation of `[0, 1, 2, 3]`.  All theorems quantify over the
streams, so they hold for every possible sequence of random draws.
-/

namespace ZombieMaze

/-- `TILE_SIZE` from the source. -/
def TILE_SIZE : Nat := 32

/-- A grid cell coordinate `(x, y)`. -/
abbrev Cell := Nat × Nat

/-- The maze grid, indexed `grid[y][x]`; `0` = empty space (floor), `1` = wall. -/
abbrev Grid := List (List Nat)

/-- Read `grid[y][x]`; out-of-range reads default to wall (the source never
reads out of range, every access is guarded by bounds checks). -/
def getCell (g : Grid) (c : Cell) : Nat := (g.getD c.2 []).getD c.1 1

/-- `grid[y][x] = 0`: carve the cell to floor.  Out-of-range writes are dropped
(the source never writes out of range). -/
def setFloor (g : Grid) (c : Cell) : Grid := g.set c.2 ((g.getD c.2 []).set c.1 0)

/-- The cell is an empty space (floor). -/
def isFloor (g : Grid) (c : Cell) : Prop := getCell g c = 0

instance (g : Grid) (c : Cell) : Decidable (isFloor g c) := Nat.decEq (getCell g c) 0

/-- Abstract model of one `std::mt19937` generator instance: a stream of raw
draws together with the index of the next draw. -/
structure Rng where
  stream : Nat → Nat
  idx : Nat

/-- Take one raw draw from the generator. -/
def Rng.next (r : Rng) : Nat × Rng := (r.stream r.idx, ⟨r.stream, r.idx + 1⟩)

/-- Model of `std::uniform_int_distribution<>(lo, hi)(gen)`. -/
def uniformN (r : Rng) (lo hi : Nat) : Nat × Rng :=
  let (n, r') := r.next
  (lo + n % (hi + 1 - lo), r')

/-- The 24 permutations of the direction list `{0, 1, 2, 3}`. -/
def perms4 : List (List Nat) :=
  [[0, 1, 2, 3], [0, 1, 3, 2], [0, 2, 1, 3], [0, 2, 3, 1], [0, 3, 1, 2], [0, 3, 2, 1],
   [1, 0, 2, 3], [1, 0, 3, 2], [1, 2, 0, 3], [1, 2, 3, 0], [1, 3, 0, 2], [1, 3, 2, 0],
   [2, 0, 1, 3], [2, 0, 3, 1], [2, 1, 0, 3], [2, 1, 3, 0], [2, 3, 0, 1], [2, 3, 1, 0],
   [3, 0, 1, 2], [3, 0, 2, 1], [3, 1, 0, 2], [3, 1, 2, 0], [3, 2, 0, 1], [3, 2, 1, 0]]

/-- Model of `std::shuffle(directions.begin(), directions.end(), gen)`: the
generator selects a permutation of `[0, 1, 2, 3]`. -/
def shuffle4 (r : Rng) : List Nat × Rng :=
  let (n, r') := r.next
  (perms4.getD (n % 24) [0, 1, 2, 3], r')

/-- Direction vectors `dx[4] = {2, -2, 0, 0}`, `dy[4] = {0, 0, 2, -2}`: the
intermediate and target cell for a step of size 2 from `(x, y)` in direction
`dir`, provided the target passes the source's bounds check
`nx >= 0 && nx < width && ny >= 0 && ny < height`. -/
def cand (w h x y dir : Nat) : Option (Cell × Cell) :=
  if dir = 0 then if x + 2 < w ∧ y < h then some ((x + 1, y), (x + 2, y)) else none
  else if dir = 1 then if 2 ≤ x ∧ x - 2 < w ∧ y < h then some ((x - 1, y), (x - 2, y)) else none
  else if dir = 2 then if x < w ∧ y + 2 < h then some ((x, y + 1), (x, y + 2)) else none
  else if dir = 3 then if x < w ∧ 2 ≤ y ∧ y - 2 < h then some ((x, y - 1), (x, y - 2)) else none
  else none

/-- Try the shuffled directions in order; the first whose target cell is in
bounds and still wall (`grid[ny][nx] == 1`) is the move taken. -/
def findMove (w h : Nat) (g : Grid) (x y : Nat) : List Nat → Option (Cell × Cell)
  | [] => none
  | d :: ds =>
    match cand w h x y d with
    | some (mid, tgt) => if getCell g tgt = 1 then some (mid, tgt) else findMove w h g x y ds
    | none => findMove w h g x y ds

/-- The `while (!stack.empty())` recursive-backtracking carving loop of
`Level::generateMaze`: peek the top cell, shuffle directions, either carve the
intermediate and target cells and push the target, or pop (backtrack). -/
def carveLoop (w h : Nat) : Nat → Grid → List Cell → Rng → Option (Grid × Rng)
  | 0, _, _, _ => none
  | _ + 1, g, [], r => some (g, r)
  | fuel + 1, g, c :: rest, r =>
    let (dirs, r') := shuffle4 r
    match findMove w h g c.1 c.2 dirs with
    | some (mid, tgt) =>
      carveLoop w h fuel (setFloor (setFloor g mid) tgt) (tgt :: c :: rest) r'
    | none => carveLoop w h fuel g rest r'

/-- Fuel which the termination theorem shows is sufficient for `carveLoop`. -/
def carveFuel (w h : Nat) : Nat := 2 * (w * h) + 2

/-- The carving start cell: the grid center `(width / 2, height / 2)`. -/
def startCell (w h : Nat) : Cell := (w / 2, h / 2)

/-- The interior cells `1 ≤ x ≤ width - 2`, `1 ≤ y ≤ height - 2` in the row-major
order of the room-punching double loop. -/
def interiorCells (w h : Nat) : List Cell :=
  (List.range' 1 (h - 2)).flatMap (fun y => (List.range' 1 (w - 2)).map (fun x => (x, y)))

/-- The body of the room-punching double loop, one interior cell at a time:
`if (grid[y][x] == 1 && roomDist(gen) < 20) grid[y][x] = 0;` — note the
short-circuit: the generator is only consumed when the cell is a wall. -/
def punchLoop : List Cell → Grid → Rng → Grid × Rng
  | [], g, r => (g, r)
  | c :: cs, g, r =>
    if getCell g c = 1 then
      let (v, r') := uniformN r 0 100
      punchLoop cs (if v < 20 then setFloor g c else g) r'
    else punchLoop cs g r

/-- The room-punching pass of `Level::generateMaze`. -/
def punch (w h : Nat) (g : Grid) (r : Rng) : Grid × Rng :=
  punchLoop (interiorCells w h) g r

/-- The four neighbour candidates of a cell in the flood-fill order
`dx[4] = {1, -1, 0, 0}`, `dy[4] = {0, 0, 1, -1}`, filtered by the source's
bounds check. -/
def nbrsOf (w h : Nat) (c : Cell) : List Cell :=
  (if c.1 + 1 < w ∧ c.2 < h then [(c.1 + 1, c.2)] else []) ++
  (if 1 ≤ c.1 ∧ c.1 - 1 < w ∧ c.2 < h then [(c.1 - 1, c.2)] else []) ++
  (if c.1 < w ∧ c.2 + 1 < h then [(c.1, c.2 + 1)] else []) ++
  (if c.1 < w ∧ 1 ≤ c.2 ∧ c.2 - 1 < h then [(c.1, c.2 - 1)] else [])

/-- Read the `visited` array; out-of-range reads default to `true`
(the source never reads out of range). -/
def getVis (vis : List (List Bool)) (c : Cell) : Bool := (vis.getD c.2 []).getD c.1 true

/-- `visited[ny][nx] = true`. -/
def setVis (vis : List (List Bool)) (c : Cell) : List (List Bool) :=
  vis.set c.2 ((vis.getD c.2 []).set c.1 true)

/-- Push one neighbour if it is floor and unvisited, marking it visited
(`stack.push_back({nx, ny}); visited[ny][nx] = true;`). -/
def dfsPush (g : Grid) (sv : List Cell × List (List Bool)) (n : Cell) :
    List Cell × List (List Bool) :=
  if getCell g n = 0 ∧ getVis sv.2 n = false then (n :: sv.1, setVis sv.2 n) else sv

/-- The inner flood-fill loop of `Level::ensureConnectivity`: pop a cell, record
it in the component, push its unvisited floor neighbours. -/
def dfsLoop (w h : Nat) (g : Grid) :
    Nat → List Cell → List (List Bool) → List Cell → Option (List Cell × List (List Bool))
  | 0, _, _, _ => none
  | _ + 1, [], vis, comp => some (comp, vis)
  | fuel + 1, c :: rest, vis, comp =>
    let sv := (nbrsOf w h c).foldl (dfsPush g) (rest, vis)
    dfsLoop w h g fuel sv.1 sv.2 (comp ++ [c])

/-- Fuel which the totality lemma shows is sufficient for `dfsLoop`. -/
def dfsFuel (w h : Nat) : Nat := 2 * (w * h) + 2

/-- All cells of the grid in the row-major order of the component scan. -/
def allCells (w h : Nat) : List Cell :=
  (List.range h).flatMap (fun y => (List.range w).map (fun x => (x, y)))

/-- The outer double loop of `Level::ensureConnectivity`: start a flood fill at
every still-unvisited floor cell, collecting the connected components in scan
order. -/
def compScan (w h : Nat) (g : Grid) :
    List Cell → List (List Bool) → List (List Cell) → List (List Cell)
  | [], _, acc => acc.reverse
  | c :: cs, vis, acc =>
    if getCell g c = 0 ∧ getVis vis c = false then
      match dfsLoop w h g (dfsFuel w h) [c] (setVis vis c) [] with
      | some (comp, vis') => compScan w h g cs vis' (comp :: acc)
      | none => compScan w h g cs vis acc
    else compScan w h g cs vis acc

/-- All connected components of floor cells, in scan order. -/
def findComponents (w h : Nat) (g : Grid) : List (List Cell) :=
  compScan w h g (allCells w h) (List.replicate h (List.replicate w false)) []

/-- Carve the horizontal run `for (int x = sx; x <= ex; x++) grid[y1][x] = 0;`. -/
def carveRow (g : Grid) (y sx ex : Nat) : Grid :=
  (List.range' sx (ex + 1 - sx)).foldl (fun g' x => setFloor g' (x, y)) g

/-- Carve the vertical run `for (int y = sy; y <= ey; y++) grid[y][x2] = 0;`. -/
def carveCol (g : Grid) (x sy ey : Nat) : Grid :=
  (List.range' sy (ey + 1 - sy)).foldl (fun g' y => setFloor g' (x, y)) g

/-- The corridor-carving loop of `Level::ensureConnectivity`: connect each
component other than the first to the first by an L-shaped corridor between a
random cell of each. -/
def connectLoop (c0 : List Cell) : Grid → List (List Cell) → Rng → Grid
  | g, [], _ => g
  | g, ci :: rest, r =>
    let (i1, r1) := uniformN r 0 (c0.length - 1)
    let (i2, r2) := uniformN r1 0 (ci.length - 1)
    let p1 := c0.getD i1 (0, 0)
    let p2 := ci.getD i2 (0, 0)
    let sx := min p1.1 p2.1
    let ex := max p1.1 p2.1
    let sy := min p1.2 p2.2
    let ey := max p1.2 p2.2
    connectLoop c0 (carveCol (carveRow g p1.2 sx ex) p2.1 sy ey) rest r2

/-- `Level::ensureConnectivity`: find all components; if there is more than one,
connect every later component to the first. -/
def ensureConnectivity (w h : Nat) (g : Grid) (r : Rng) : Grid :=
  match findComponents w h g with
  | c0 :: ci :: rest => connectLoop c0 g (ci :: rest) r
  | _ => g

/-- The player-spawn rejection loop: sample `playerX, playerY` from
`uniform_int_distribution<>(1, 3)` until the cell is floor. -/
def spawnLoop (g : Grid) : Nat → Rng → Option (Cell × Rng)
  | 0, _ => none
  | fuel + 1, r =>
    let (px, r1) := uniformN r 1 3
    let (py, r2) := uniformN r1 1 3
    if getCell g (px, py) = 0 then some ((px, py), r2) else spawnLoop g fuel r2

/-- Squared Euclidean distance between two world positions (the source compares
`sqrt(pow(x*TILE_SIZE - spawn.x, 2) + pow(y*TILE_SIZE - spawn.y, 2))` with
`5 * TILE_SIZE`; on these integer-valued positions that comparison is exactly
the squared comparison). -/
def distSq (p q : Nat × Nat) : Int :=
  ((p.1 : Int) - q.1) ^ 2 + ((p.2 : Int) - q.2) ^ 2

/-- The inner do-while of `Level::placeEntities`: sample an interior cell until
it is floor and at distance at least `5 * TILE_SIZE` from the player spawn. -/
def placeAttempt (w h : Nat) (g : Grid) (spawnPos : Nat × Nat) : Nat → Rng → Option (Cell × Rng)
  | 0, _ => none
  | fuel + 1, r =>
    let (x, r1) := uniformN r 1 (w - 2)
    let (y, r2) := uniformN r1 1 (h - 2)
    if getCell g (x, y) = 0 ∧
        ((5 * TILE_SIZE : Nat) : Int) ^ 2 ≤ distSq (x * TILE_SIZE, y * TILE_SIZE) spawnPos then
      some ((x, y), r2)
    else placeAttempt w h g spawnPos fuel r2

/-- The outer `for (int i = 0; i < count; i++)` of `Level::placeEntities`,
recording accepted world positions in order. -/
def placeLoop (w h : Nat) (g : Grid) (spawnPos : Nat × Nat) (fuel : Nat) :
    Nat → Rng → Option (List (Nat × Nat) × Rng)
  | 0, r => some ([], r)
  | count + 1, r =>
    match placeAttempt w h g spawnPos fuel r with
    | none => none
    | some (c, r') =>
      match placeLoop w h g spawnPos fuel count r' with
      | none => none
      | some (ps, r'') => some ((c.1 * TILE_SIZE, c.2 * TILE_SIZE) :: ps, r'')

/-- `Level::placeEntities` (one call, with its own freshly seeded generator). -/
def placeEntities (w h : Nat) (g : Grid) (spawnPos : Nat × Nat) (count : Nat) (r : Rng)
    (fuel : Nat) : Option (List (Nat × Nat)) :=
  (placeLoop w h g spawnPos fuel count r).map Prod.fst

/-- The data `Level` hands to the caller: the final grid, the player spawn
position, and the key and zombie world positions. -/
structure GenResult where
  grid : Grid
  playerPosition : Nat × Nat
  keyPositions : List (Nat × Nat)
  zombiePositions : List (Nat × Nat)
deriving DecidableEq

/-- `Level::generateMaze`: fill with walls, carve from the center, punch rooms,
repair connectivity, sample the player spawn, place keys and zombies.  The four
`Rng` arguments model the four `std::mt19937` instances the source constructs
from `std::random_device` during one generation (one in `generateMaze`, one in
`ensureConnectivity`, one per `placeEntities` call). -/
def generateMaze (w h keyCount zombieCount : Nat) (r1 r2 r3 r4 : Rng) (fuel : Nat) :
    Option GenResult :=
  let g0 := setFloor (List.replicate h (List.replicate w 1)) (startCell w h)
  match carveLoop w h (carveFuel w h) g0 [startCell w h] r1 with
  | none => none
  | some (g1, r1') =>
    let pr := punch w h g1 r1'
    let g3 := ensureConnectivity w h pr.1 r2
    match spawnLoop g3 fuel pr.2 with
    | none => none
    | some (sc, _) =>
      let spawnPos := (sc.1 * TILE_SIZE, sc.2 * TILE_SIZE)
      match placeEntities w h g3 spawnPos keyCount r3 fuel with
      | none => none
      | some keys =>
        match placeEntities w h g3 spawnPos zombieCount r4 fuel with
        | none => none
        | some zs => some ⟨g3, spawnPos, keys, zs⟩

/-- The `Level` constructor: `width = 20 + levelNumber`, `height = 15 +
levelNumber`, `totalKeys = 3 + levelNumber / 2`, `totalZombies = 2 +
levelNumber`, then `generateMaze()`. -/
def generateLevel (levelNumber : Nat) (r1 r2 r3 r4 : Rng) (fuel : Nat) : Option GenResult :=
  generateMaze (20 + levelNumber) (15 + levelNumber) (3 + levelNumber / 2) (2 + levelNumber)
    r1 r2 r3 r4 fuel

/-- The fields of the `Zombie` entity initialised by its constructor that the
claims are about. -/
structure Zombie where
  position : Nat × Nat
  health : Int
  maxHealth : Int
deriving DecidableEq

/-- The `Zombie(pos, level)` constructor: `health(level * 2), maxHealth(level * 2)`. -/
def mkZombie (pos : Nat × Nat) (level : Nat) : Zombie :=
  { position := pos, health := (level : Int) * 2, maxHealth := (level : Int) * 2 }

/-- `Level::createEntities` constructs `Zombie(pos, levelNumber)` for every
recorded zombie position. -/
def createZombies (res : GenResult) (levelNumber : Nat) : List Zombie :=
  res.zombiePositions.map (fun p => mkZombie p levelNumber)

/-- 4-directional adjacency of cells. -/
def Adjacent (a b : Cell) : Prop :=
  (a.1 = b.1 ∧ (a.2 + 1 = b.2 ∨ b.2 + 1 = a.2)) ∨ (a.2 = b.2 ∧ (a.1 + 1 = b.1 ∨ b.1 + 1 = a.1))

instance (a b : Cell) : Decidable (Adjacent a b) := by unfold Adjacent; infer_instance

/-- One flood-fill step: both cells are floor and 4-adjacent. -/
def Step (g : Grid) (a b : Cell) : Prop := isFloor g a ∧ isFloor g b ∧ Adjacent a b

/-- Flood-fill reachability between cells of a grid. -/
def Reach (g : Grid) (a b : Cell) : Prop := Relation.ReflTransGen (Step g) a b

/-- The grid has `h` rows of `w` cells each (the shape `Level` always maintains). -/
def GridDims (g : Grid) (w h : Nat) : Prop := g.length = h ∧ ∀ row ∈ g, row.length = w

theorem gridDims_replicate (w h v : Nat) :
    GridDims (List.replicate h (List.replicate w v)) w h := by
  refine ⟨List.length_replicate .., fun row hrow => ?_⟩
  rw [List.eq_of_mem_replicate hrow, List.length_replicate]

theorem getD_mem {α : Type} {l : List α} {n : Nat} (d : α) (h : n < l.length) :
    l.getD n d ∈ l := by
  rw [List.getD_eq_getElem?_getD, List.getElem?_eq_getElem h]
  exact List.getElem_mem h

theorem gridDims_setFloor {g : Grid} {w h : Nat} (hd : GridDims g w h) (c : Cell) :
    GridDims (setFloor g c) w h := by
  obtain ⟨hl, hr⟩ := hd
  by_cases hy : c.2 < g.length
  · refine ⟨by simpa [setFloor] using hl, fun row hrow => ?_⟩
    rcases List.mem_or_eq_of_mem_set hrow with hmem | rfl
    · exact hr _ hmem
    · rw [List.length_set]
      exact hr _ (getD_mem [] hy)
  · unfold setFloor
    rw [List.set_eq_of_length_le (by omega)]
    exact ⟨hl, hr⟩

theorem getCell_setFloor_ne {c d : Cell} (g : Grid) (h : c ≠ d) :
    getCell (setFloor g c) d = getCell g d := by
  obtain ⟨cx, cy⟩ := c
  obtain ⟨dx, dy⟩ := d
  unfold getCell setFloor
  simp only [List.getD_eq_getElem?_getD]
  by_cases hy : cy = dy
  · have hx : cx ≠ dx := fun hx => h (by rw [hx, hy])
    subst hy
    by_cases hlt : cy < g.length
    · rw [List.getElem?_set_self hlt, Option.getD_some, List.getElem?_set_ne hx]
    · rw [List.set_eq_of_length_le (by omega)]
  · rw [List.getElem?_set_ne hy]

theorem getCell_setFloor_self (g : Grid) (c : Cell) :
    getCell (setFloor g c) c = 0 ∨ getCell (setFloor g c) c = getCell g c := by
  obtain ⟨cx, cy⟩ := c
  unfold getCell setFloor
  simp only [List.getD_eq_getElem?_getD]
  by_cases hy : cy < g.length
  · rw [List.getElem?_set_self hy, Option.getD_some]
    by_cases hx : cx < (g.getD cy []).length
    · left
      rw [List.getD_eq_getElem?_getD] at hx
      rw [List.getElem?_set_self hx, Option.getD_some]
    · right
      rw [List.getD_eq_getElem?_getD] at hx
      rw [List.set_eq_of_length_le (by omega)]
  · right
    rw [List.set_eq_of_length_le (by omega)]

theorem getCell_setFloor_self_of_lt {g : Grid} {w h : Nat} {c : Cell} (hd : GridDims g w h)
    (hx : c.1 < w) (hy : c.2 < h) : getCell (setFloor g c) c = 0 := by
  obtain ⟨hl, hr⟩ := hd
  have hylen : c.2 < g.length := by omega
  have hrow : (g.getD c.2 []).length = w := hr _ (getD_mem [] hylen)
  obtain ⟨cx, cy⟩ := c
  unfold getCell setFloor
  simp only [List.getD_eq_getElem?_getD] at hrow hylen ⊢
  rw [List.getElem?_set_self hylen, Option.getD_some,
    List.getElem?_set_self (by omega), Option.getD_some]

theorem isFloor_setFloor_mono {g : Grid} {d : Cell} (c : Cell) (hf : isFloor g d) :
    isFloor (setFloor g c) d := by
  by_cases hcd : c = d
  · subst hcd
    rcases getCell_setFloor_self g c with h0 | h0
    · simp [isFloor, h0]
    · simp only [isFloor, h0]
      exact hf
  · simpa [isFloor, getCell_setFloor_ne g hcd] using hf

theorem isFloor_setFloor_elim {g : Grid} {c d : Cell} (hf : isFloor (setFloor g c) d) :
    d = c ∨ isFloor g d := by
  by_cases hcd : c = d
  · exact Or.inl hcd.symm
  · exact Or.inr (by simpa [isFloor, getCell_setFloor_ne g hcd] using hf)

theorem getCell_oob {g : Grid} {w h : Nat} {c : Cell} (hd : GridDims g w h)
    (hout : w ≤ c.1 ∨ h ≤ c.2) : getCell g c = 1 := by
  obtain ⟨hl, hr⟩ := hd
  rcases hout with hx | hy
  · unfold getCell
    by_cases hylt : c.2 < g.length
    · have hrow : (g.getD c.2 []).length = w := hr _ (getD_mem [] hylt)
      rw [List.getD_eq_getElem?_getD, List.getElem?_eq_none (by omega)]
      rfl
    · rw [List.getD_eq_getElem?_getD (l := g), List.getElem?_eq_none (by omega)]
      simp
  · unfold getCell
    rw [List.getD_eq_getElem?_getD (l := g), List.getElem?_eq_none (by omega)]
    simp

theorem isFloor_lt {g : Grid} {w h : Nat} {c : Cell} (hd : GridDims g w h)
    (hf : isFloor g c) : c.1 < w ∧ c.2 < h := by
  by_contra hcon
  rw [isFloor, getCell_oob hd (by omega)] at hf
  omega

/-! ### Reachability utilities -/

theorem adjacent_swap {a b : Cell} (h : Adjacent a b) : Adjacent b a := by
  unfold Adjacent at *
  tauto

theorem Adjacent.ne {a b : Cell} (h : Adjacent a b) : a ≠ b := by
  rintro rfl
  unfold Adjacent at h
  omega

theorem step_swap {g : Grid} {a b : Cell} (h : Step g a b) : Step g b a :=
  ⟨h.2.1, h.1, adjacent_swap h.2.2⟩

theorem reach_refl (g : Grid) (a : Cell) : Reach g a a := Relation.ReflTransGen.refl

theorem reach_of_step {g : Grid} {a b : Cell} (h : Step g a b) : Reach g a b :=
  Relation.ReflTransGen.single h

theorem reach_trans {g : Grid} {a b c : Cell} (hab : Reach g a b) (hbc : Reach g b c) :
    Reach g a c := Relation.ReflTransGen.trans hab hbc

theorem reach_symm {g : Grid} {a b : Cell} (h : Reach g a b) : Reach g b a :=
  Relation.ReflTransGen.symmetric (fun _ _ hs => step_swap hs) h

/-- The floor set of `g` is contained in the floor set of `g'`. -/
def FloorSub (g g' : Grid) : Prop := ∀ c, isFloor g c → isFloor g' c

theorem floorSub_refl (g : Grid) : FloorSub g g := fun _ h => h

theorem floorSub_trans {g g' g'' : Grid} (h1 : FloorSub g g') (h2 : FloorSub g' g'') :
    FloorSub g g'' := fun c hc => h2 c (h1 c hc)

theorem floorSub_setFloor (g : Grid) (c : Cell) : FloorSub g (setFloor g c) :=
  fun _ hd => isFloor_setFloor_mono c hd

theorem reach_mono {g g' : Grid} (hs : FloorSub g g') {a b : Cell} (h : Reach g a b) :
    Reach g' a b := by
  induction h with
  | refl => exact reach_refl g' a
  | tail _ hstep ih => exact reach_trans ih (reach_of_step ⟨hs _ hstep.1, hs _ hstep.2.1, hstep.2.2⟩)

theorem reach_isFloor_right {g : Grid} {a b : Cell} (h : Reach g a b) (ha : isFloor g a) :
    isFloor g b := by
  induction h with
  | refl => exact ha
  | tail _ hstep _ => exact hstep.2.1

/-! ### Termination of the carving loop -/

/-- Number of non-floor cells of the grid, the decreasing part of the loop measure. -/
def wallCount (g : Grid) : Nat := (g.map (fun row => (row.filter (fun v => v != 0)).length)).sum

theorem filter_walls_set_le (row : List Nat) : ∀ i : Nat,
    ((row.set i 0).filter (fun v => v != 0)).length ≤ (row.filter (fun v => v != 0)).length := by
  induction row with
  | nil => intro i; simp
  | cons a t ih =>
    intro i
    cases i with
    | zero =>
      simp only [List.set_cons_zero, List.filter_cons]
      split <;> split <;> simp_all
    | succ j =>
      simp only [List.set_cons_succ, List.filter_cons]
      split <;> simpa using ih j

theorem filter_walls_set_lt (row : List Nat) : ∀ i : Nat, i < row.length → row.getD i 1 ≠ 0 →
    ((row.set i 0).filter (fun v => v != 0)).length < (row.filter (fun v => v != 0)).length := by
  induction row with
  | nil => intro i hi; simp at hi
  | cons a t ih =>
    intro i hi hv
    cases i with
    | zero =>
      simp only [List.getD_cons_zero] at hv
      simp only [List.set_cons_zero, List.filter_cons]
      have : (a != 0) = true := by simpa using hv
      rw [this]
      simp
    | succ j =>
      simp only [List.getD_cons_succ] at hv
      simp only [List.set_cons_succ, List.filter_cons]
      have hj : j < t.length := by simpa using hi
      split <;> simpa using ih j hj hv

theorem wallCount_set_le (g : Grid) : ∀ (cx cy : Nat),
    wallCount (g.set cy ((g.getD cy []).set cx 0)) ≤ wallCount g := by
  induction g with
  | nil => intro cx cy; simp [wallCount]
  | cons row t ih =>
    intro cx cy
    cases cy with
    | zero =>
      simp only [List.getD_cons_zero, List.set_cons_zero]
      unfold wallCount
      simp only [List.map_cons, List.sum_cons]
      have h1 := filter_walls_set_le row cx
      omega
    | succ j =>
      simp only [List.getD_cons_succ, List.set_cons_succ]
      have h2 := ih cx j
      unfold wallCount at h2 ⊢
      simp only [List.map_cons, List.sum_cons]
      omega

theorem wallCount_setFloor_le (g : Grid) (c : Cell) : wallCount (setFloor g c) ≤ wallCount g :=
  wallCount_set_le g c.1 c.2

theorem wallCount_set_lt (g : Grid) : ∀ (cx cy : Nat), cy < g.length →
    cx < (g.getD cy []).length → (g.getD cy []).getD cx 1 ≠ 0 →
    wallCount (g.set cy ((g.getD cy []).set cx 0)) < wallCount g := by
  induction g with
  | nil => intro cx cy hy; simp at hy
  | cons row t ih =>
    intro cx cy hy hx hv
    cases cy with
    | zero =>
      simp only [List.getD_cons_zero] at hx hv
      simp only [List.getD_cons_zero, List.set_cons_zero]
      unfold wallCount
      simp only [List.map_cons, List.sum_cons]
      have h1 := filter_walls_set_lt row cx hx hv
      omega
    | succ j =>
      simp only [List.getD_cons_succ] at hx hv
      have hj : j < t.length := by simpa using hy
      simp only [List.getD_cons_succ, List.set_cons_succ]
      have h2 := ih cx j hj hx hv
      unfold wallCount at h2 ⊢
      simp only [List.map_cons, List.sum_cons]
      omega

theorem wallCount_setFloor_lt {g : Grid} {c : Cell} (hy : c.2 < g.length)
    (hx : c.1 < (g.getD c.2 []).length) (hv : getCell g c ≠ 0) :
    wallCount (setFloor g c) < wallCount g :=
  wallCount_set_lt g c.1 c.2 hy hx hv

theorem wallCount_replicate (w h : Nat) :
    wallCount (List.replicate h (List.replicate w 1)) = h * w := by
  unfold wallCount
  rw [List.map_replicate]
  simp

/-- Inversion for a successful direction candidate: the four direction shapes
with their bounds checks. -/
theorem cand_cases {w h x y d : Nat} {mid tgt : Cell}
    (hc : cand w h x y d = some (mid, tgt)) :
    (mid = (x + 1, y) ∧ tgt = (x + 2, y) ∧ x + 2 < w ∧ y < h) ∨
    (2 ≤ x ∧ mid = (x - 1, y) ∧ tgt = (x - 2, y) ∧ x - 2 < w ∧ y < h) ∨
    (mid = (x, y + 1) ∧ tgt = (x, y + 2) ∧ x < w ∧ y + 2 < h) ∨
    (2 ≤ y ∧ mid = (x, y - 1) ∧ tgt = (x, y - 2) ∧ x < w ∧ y - 2 < h) := by
  unfold cand at hc
  repeat' split at hc
  all_goals try simp at hc
  all_goals obtain ⟨rfl, rfl⟩ := hc
  · exact Or.inl ⟨rfl, rfl, by omega, by omega⟩
  · exact Or.inr (Or.inl ⟨by omega, rfl, rfl, by omega, by omega⟩)
  · exact Or.inr (Or.inr (Or.inl ⟨rfl, rfl, by omega, by omega⟩))
  · exact Or.inr (Or.inr (Or.inr ⟨by omega, rfl, rfl, by omega, by omega⟩))

/-- Every successful direction candidate has an in-bounds target different from
its intermediate cell. -/
theorem cand_spec {w h x y d : Nat} {mid tgt : Cell}
    (hc : cand w h x y d = some (mid, tgt)) :
    tgt.1 < w ∧ tgt.2 < h ∧ mid ≠ tgt := by
  rcases cand_cases hc with ⟨rfl, rfl, hb1, hb2⟩ | ⟨hx2, rfl, rfl, hb1, hb2⟩ |
    ⟨rfl, rfl, hb1, hb2⟩ | ⟨hy2, rfl, rfl, hb1, hb2⟩ <;>
    refine ⟨by dsimp only; omega, by dsimp only; omega, fun he => ?_⟩ <;>
    (rw [Prod.ext_iff] at he; dsimp only at he; omega)

/-- A successful move returned by `findMove` targets a wall cell reachable by
one of the direction candidates. -/
theorem findMove_spec {w h : Nat} {g : Grid} {x y : Nat} : ∀ {ds : List Nat} {mid tgt : Cell},
    findMove w h g x y ds = some (mid, tgt) →
    getCell g tgt = 1 ∧ ∃ d : Nat, cand w h x y d = some (mid, tgt) := by
  intro ds
  induction ds with
  | nil => intro mid tgt hm; simp [findMove] at hm
  | cons d ds ih =>
    intro mid tgt hm
    unfold findMove at hm
    rcases hc : cand w h x y d with _ | ⟨m, t⟩
    · simp only [hc] at hm
      exact ih hm
    · simp only [hc] at hm
      by_cases hw : getCell g t = 1
      · rw [if_pos hw] at hm
        simp only [Option.some.injEq, Prod.mk.injEq] at hm
        obtain ⟨rfl, rfl⟩ := hm
        exact ⟨hw, d, hc⟩
      · rw [if_neg hw] at hm
        exact ih hm

/-- With fuel exceeding twice the wall count plus the stack length, the carving
loop runs to completion. -/
theorem carveLoop_isSome {w h : Nat} : ∀ (fuel : Nat) (g : Grid) (stack : List Cell) (r : Rng),
    GridDims g w h → 2 * wallCount g + stack.length < fuel →
    (carveLoop w h fuel g stack r).isSome = true := by
  intro fuel
  induction fuel with
  | zero => intro g stack r _ hlt; omega
  | succ fuel ih =>
    intro g stack r hd hlt
    cases stack with
    | nil => simp [carveLoop]
    | cons c rest =>
      unfold carveLoop
      rcases hm : findMove w h g c.1 c.2 (shuffle4 r).1 with _ | ⟨mid, tgt⟩
      · simp only [hm]
        exact ih g rest _ hd (by simp at hlt ⊢; omega)
      · simp only [hm]
        obtain ⟨hwall, d, hc⟩ := findMove_spec hm
        obtain ⟨ht1, ht2, hne⟩ := cand_spec hc
        have hd1 : GridDims (setFloor g mid) w h := gridDims_setFloor hd mid
        have hd2 : GridDims (setFloor (setFloor g mid) tgt) w h := gridDims_setFloor hd1 tgt
        have hcell : getCell (setFloor g mid) tgt = 1 := by
          rw [getCell_setFloor_ne g hne]
          exact hwall
        have hlen : tgt.2 < (setFloor g mid).length := by
          rw [hd1.1]
          exact ht2
        have hrowlen : tgt.1 < ((setFloor g mid).getD tgt.2 []).length := by
          rw [hd1.2 _ (getD_mem [] hlen)]
          exact ht1
        have hlt2 : wallCount (setFloor (setFloor g mid) tgt) < wallCount g := by
          calc wallCount (setFloor (setFloor g mid) tgt) < wallCount (setFloor g mid) :=
                wallCount_setFloor_lt hlen hrowlen (by rw [hcell]; omega)
            _ ≤ wallCount g := wallCount_setFloor_le g mid
        exact ih _ _ _ hd2 (by simp at hlt ⊢; omega)

/-- C9: the recursive-backtracking carving loop terminates for every width and
height, within fuel `2 * (width * height) + 2`: each iteration either carves a
previously-wall cell (at most `width * height` times) or pops the stack. -/
theorem c9_carve_loop_terminates (w h : Nat) (r : Rng) :
    (carveLoop w h (carveFuel w h)
      (setFloor (List.replicate h (List.replicate w 1)) (startCell w h))
      [startCell w h] r).isSome = true := by
  apply carveLoop_isSome _ _ _ _ (gridDims_setFloor (gridDims_replicate w h 1) _)
  have h1 : wallCount (setFloor (List.replicate h (List.replicate w 1)) (startCell w h)) ≤ h * w :=
    le_trans (wallCount_setFloor_le _ _) (le_of_eq (wallCount_replicate w h))
  unfold carveFuel
  have h2 : ([startCell w h] : List Cell).length = 1 := rfl
  have h3 : h * w = w * h := Nat.mul_comm h w
  omega

/-! ### The spawn and placement rejection loops -/

theorem spawnLoop_spec {g : Grid} : ∀ {fuel : Nat} {r : Rng} {c : Cell} {r' : Rng},
    spawnLoop g fuel r = some (c, r') →
    getCell g c = 0 ∧ 1 ≤ c.1 ∧ c.1 ≤ 3 ∧ 1 ≤ c.2 ∧ c.2 ≤ 3 := by
  intro fuel
  induction fuel with
  | zero => intro r c r' hs; simp [spawnLoop] at hs
  | succ fuel ih =>
    intro r c r' hs
    unfold spawnLoop at hs
    simp only [uniformN, Rng.next] at hs
    split at hs
    · simp only [Option.some.injEq, Prod.mk.injEq] at hs
      obtain ⟨rfl, rfl⟩ := hs.1
      rename_i hfl
      refine ⟨hfl, ?_, ?_, ?_, ?_⟩ <;> dsimp only <;> omega
    · exact ih hs

theorem placeAttempt_spec {w h : Nat} {g : Grid} {sp : Nat × Nat} :
    ∀ {fuel : Nat} {r : Rng} {c : Cell} {r' : Rng},
    placeAttempt w h g sp fuel r = some (c, r') →
    getCell g c = 0 ∧
      ((5 * TILE_SIZE : Nat) : Int) ^ 2 ≤ distSq (c.1 * TILE_SIZE, c.2 * TILE_SIZE) sp := by
  intro fuel
  induction fuel with
  | zero => intro r c r' hs; simp [placeAttempt] at hs
  | succ fuel ih =>
    intro r c r' hs
    unfold placeAttempt at hs
    simp only [uniformN, Rng.next] at hs
    split at hs
    · simp only [Option.some.injEq, Prod.mk.injEq] at hs
      obtain ⟨rfl, rfl⟩ := hs.1
      rename_i hacc
      exact hacc
    · exact ih hs

theorem placeLoop_spec {w h : Nat} {g : Grid} {sp : Nat × Nat} {fuel : Nat} :
    ∀ {count : Nat} {r : Rng} {ps : List (Nat × Nat)} {r' : Rng},
    placeLoop w h g sp fuel count r = some (ps, r') →
    ps.length = count ∧ ∀ p ∈ ps, ∃ c : Cell, p = (c.1 * TILE_SIZE, c.2 * TILE_SIZE) ∧
      getCell g c = 0 ∧ ((5 * TILE_SIZE : Nat) : Int) ^ 2 ≤ distSq p sp := by
  intro count
  induction count with
  | zero =>
    intro r ps r' hs
    unfold placeLoop at hs
    simp only [Option.some.injEq, Prod.mk.injEq] at hs
    obtain ⟨rfl, rfl⟩ := hs
    simp
  | succ count ih =>
    intro r ps r' hs
    unfold placeLoop at hs
    rcases ha : placeAttempt w h g sp fuel r with _ | ⟨c, rc⟩
    · rw [ha] at hs
      simp at hs
    · rw [ha] at hs
      dsimp only at hs
      rcases hl : placeLoop w h g sp fuel count rc with _ | ⟨ps', rl⟩
      · rw [hl] at hs
        simp at hs
      · rw [hl] at hs
        simp only [Option.some.injEq, Prod.mk.injEq] at hs
        obtain ⟨rfl, rfl⟩ := hs
        obtain ⟨hlen, hmem⟩ := ih hl
        obtain ⟨hfl, hdist⟩ := placeAttempt_spec ha
        refine ⟨by simp [hlen], fun p hp => ?_⟩
        rcases List.mem_cons.mp hp with rfl | hp'
        · exact ⟨c, rfl, hfl, hdist⟩
        · exact hmem p hp'

theorem placeEntities_spec {w h : Nat} {g : Grid} {sp : Nat × Nat} {count : Nat} {r : Rng}
    {fuel : Nat} {ps : List (Nat × Nat)}
    (hs : placeEntities w h g sp count r fuel = some ps) :
    ps.length = count ∧ ∀ p ∈ ps, ∃ c : Cell, p = (c.1 * TILE_SIZE, c.2 * TILE_SIZE) ∧
      getCell g c = 0 ∧ ((5 * TILE_SIZE : Nat) : Int) ^ 2 ≤ distSq p sp := by
  unfold placeEntities at hs
  rcases hl : placeLoop w h g sp fuel count r with _ | ⟨ps', r'⟩
  · rw [hl] at hs
    simp at hs
  · rw [hl] at hs
    simp at hs
    subst hs
    exact placeLoop_spec hl

/-! ### Inversion of `generateMaze` -/

theorem generateMaze_inv {w h kc zc : Nat} {r1 r2 r3 r4 : Rng} {fuel : Nat} {res : GenResult}
    (hg : generateMaze w h kc zc r1 r2 r3 r4 fuel = some res) :
    ∃ (g1 : Grid) (rc : Rng) (sc : Cell) (rs : Rng),
      carveLoop w h (carveFuel w h)
        (setFloor (List.replicate h (List.replicate w 1)) (startCell w h))
        [startCell w h] r1 = some (g1, rc) ∧
      res.grid = ensureConnectivity w h (punch w h g1 rc).1 r2 ∧
      spawnLoop res.grid fuel (punch w h g1 rc).2 = some (sc, rs) ∧
      res.playerPosition = (sc.1 * TILE_SIZE, sc.2 * TILE_SIZE) ∧
      placeEntities w h res.grid res.playerPosition kc r3 fuel = some res.keyPositions ∧
      placeEntities w h res.grid res.playerPosition zc r4 fuel = some res.zombiePositions := by
  unfold generateMaze at hg
  dsimp only at hg
  rcases hc : carveLoop w h (carveFuel w h)
      (setFloor (List.replicate h (List.replicate w 1)) (startCell w h))
      [startCell w h] r1 with _ | ⟨g1, rc⟩
  · rw [hc] at hg
    simp at hg
  · rw [hc] at hg
    dsimp only at hg
    rcases hsp : spawnLoop (ensureConnectivity w h (punch w h g1 rc).1 r2) fuel
        (punch w h g1 rc).2 with _ | ⟨sc, rs⟩
    · rw [hsp] at hg
      simp at hg
    · rw [hsp] at hg
      dsimp only at hg
      rcases hk : placeEntities w h (ensureConnectivity w h (punch w h g1 rc).1 r2)
          (sc.1 * TILE_SIZE, sc.2 * TILE_SIZE) kc r3 fuel with _ | ⟨keys⟩
      · rw [hk] at hg
        simp at hg
      · rw [hk] at hg
        dsimp only at hg
        rcases hz : placeEntities w h (ensureConnectivity w h (punch w h g1 rc).1 r2)
            (sc.1 * TILE_SIZE, sc.2 * TILE_SIZE) zc r4 fuel with _ | ⟨zs⟩
        · rw [hz] at hg
          simp at hg
        · rw [hz] at hg
          simp only [Option.some.injEq] at hg
          subst hg
          exact ⟨g1, rc, sc, rs, rfl, rfl, hsp, rfl, hk, hz⟩

/-! ### A concrete successful generation run, used to witness the theorems.
The streams model one particular outcome of the `std::random_device` seeding:
the first generator always draws 0 (so every interior wall is punched into
floor and the spawn loop accepts `(1, 1)` at once), and the placement
generators alternate 6 and 0 (so every placement attempt accepts `(7, 1)`). -/

def wStream0 : Nat → Nat := fun _ => 0

def wStream1 : Nat → Nat := fun _ => 1

def wStreamP : Nat → Nat := fun n => if n % 2 = 0 then 6 else 0

def gridA : Grid :=
  [[0, 0, 0, 0, 0, 0, 0, 0, 0, 0, 0, 0, 0, 0, 0, 0, 0, 0, 0, 0, 0],
   [1, 0, 0, 0, 0, 0, 0, 0, 0, 0, 0, 0, 0, 0, 0, 0, 0, 0, 0, 0, 0],
   [0, 0, 0, 0, 0, 0, 0, 0, 0, 0, 0, 0, 0, 0, 0, 0, 0, 0, 0, 0, 0],
   [0, 0, 0, 0, 0, 0, 0, 0, 0, 0, 0, 0, 0, 0, 0, 0, 0, 0, 0, 0, 1],
   [0, 0, 0, 0, 0, 0, 0, 0, 0, 0, 0, 0, 0, 0, 0, 0, 0, 0, 0, 0, 0],
   [0, 0, 0, 0, 0, 0, 0, 0, 0, 0, 0, 0, 0, 0, 0, 0, 0, 0, 0, 0, 0],
   [0, 0, 0, 0, 0, 0, 0, 0, 0, 0, 0, 0, 0, 0, 0, 0, 0, 0, 0, 0, 0],
   [1, 0, 0, 0, 0, 0, 0, 0, 0, 0, 0, 0, 0, 0, 0, 0, 0, 0, 0, 0, 1],
   [0, 0, 0, 0, 0, 0, 0, 0, 0, 0, 0, 0, 0, 0, 0, 0, 0, 0, 0, 0, 0],
   [0, 0, 0, 0, 0, 0, 0, 0, 0, 0, 0, 0, 0, 0, 0, 0, 0, 0, 0, 0, 0],
   [0, 0, 0, 0, 0, 0, 0, 0, 0, 0, 0, 0, 0, 0, 0, 0, 0, 0, 0, 0, 0],
   [0, 0, 0, 0, 0, 0, 0, 0, 0, 0, 0, 0, 0, 0, 0, 0, 0, 0, 0, 0, 1],
   [0, 0, 0, 0, 0, 0, 0, 0, 0, 0, 0, 0, 0, 0, 0, 0, 0, 0, 0, 0, 0],
   [1, 0, 0, 0, 0, 0, 0, 0, 0, 0, 0, 0, 0, 0, 0, 0, 0, 0, 0, 0, 0],
   [0, 0, 0, 0, 0, 0, 0, 0, 0, 0, 0, 0, 0, 0, 0, 0, 0, 0, 0, 0, 0],
   [1, 1, 1, 1, 1, 1, 1, 1, 1, 1, 1, 1, 1, 1, 1, 1, 1, 1, 1, 1, 1]]

def resA : GenResult :=
  { grid := gridA
    playerPosition := (32, 32)
    keyPositions := [(224, 32), (224, 32), (224, 32)]
    zombiePositions := [(224, 32), (224, 32), (224, 32)] }

set_option maxRecDepth 100000 in
theorem generateLevel_runA :
    generateLevel 1 ⟨wStream0, 0⟩ ⟨wStream0, 0⟩ ⟨wStreamP, 0⟩ ⟨wStreamP, 0⟩ 50 = some resA := by
  decide

/-! ### The placement, count and spawn claims -/

/-- C3: every position in the returned key list and zombie list lies on a floor
cell of the final grid, at Euclidean distance at least `5 * TILE_SIZE` world
units from the player spawn position. -/
theorem c3_placement_valid (L : Nat) (r1 r2 r3 r4 : Rng) (fuel : Nat) (res : GenResult)
    (hg : generateLevel L r1 r2 r3 r4 fuel = some res) :
    ∀ p ∈ res.keyPositions ++ res.zombiePositions,
      ∃ c : Cell, p = (c.1 * TILE_SIZE, c.2 * TILE_SIZE) ∧ isFloor res.grid c ∧
        ((5 * TILE_SIZE : Nat) : Int) ^ 2 ≤ distSq p res.playerPosition ∧
        ((5 * TILE_SIZE : Nat) : ℝ) ≤ Real.sqrt ((distSq p res.playerPosition : Int) : ℝ) := by
  obtain ⟨g1, rc, sc, rs, _, _, _, _, hk, hz⟩ := generateMaze_inv hg
  intro p hp
  have hspec : ∃ c : Cell, p = (c.1 * TILE_SIZE, c.2 * TILE_SIZE) ∧
      getCell res.grid c = 0 ∧
      ((5 * TILE_SIZE : Nat) : Int) ^ 2 ≤ distSq p res.playerPosition := by
    rcases List.mem_append.mp hp with hp' | hp'
    · exact (placeEntities_spec hk).2 p hp'
    · exact (placeEntities_spec hz).2 p hp'
  obtain ⟨c, hpc, hfl, hdist⟩ := hspec
  refine ⟨c, hpc, hfl, hdist, ?_⟩
  have h0 : ((0 : Int) : ℝ) ≤ ((distSq p res.playerPosition : Int) : ℝ) := by
    have : (0 : Int) ≤ distSq p res.playerPosition := by
      unfold distSq
      positivity
    exact_mod_cast this
  have hcast : (((5 * TILE_SIZE : Nat) : ℝ)) ^ 2 ≤ ((distSq p res.playerPosition : Int) : ℝ) := by
    have := hdist
    push_cast at this ⊢
    exact_mod_cast this
  calc ((5 * TILE_SIZE : Nat) : ℝ)
      = Real.sqrt (((5 * TILE_SIZE : Nat) : ℝ) ^ 2) := by
        rw [Real.sqrt_sq (by positivity)]
    _ ≤ Real.sqrt ((distSq p res.playerPosition : Int) : ℝ) := Real.sqrt_le_sqrt hcast

/-- C3 witness: the concrete run's key position `(224, 32)` satisfies the
placement claim. -/
theorem c3_placement_valid_witness :
    ∃ c : Cell, ((224, 32) : Nat × Nat) = (c.1 * TILE_SIZE, c.2 * TILE_SIZE) ∧
      isFloor resA.grid c ∧
      ((5 * TILE_SIZE : Nat) : Int) ^ 2 ≤ distSq (224, 32) resA.playerPosition ∧
      ((5 * TILE_SIZE : Nat) : ℝ) ≤
        Real.sqrt ((distSq (224, 32) resA.playerPosition : Int) : ℝ) :=
  c3_placement_valid 1 ⟨wStream0, 0⟩ ⟨wStream0, 0⟩ ⟨wStreamP, 0⟩ ⟨wStreamP, 0⟩ 50 resA
    generateLevel_runA (224, 32) (by decide)

/-- C4: for every level number `L ≥ 1`, a completed generation returns exactly
`3 + L / 2` key positions and `2 + L` zombie positions, and every zombie
created for the level starts with `health = maxHealth = 2 * L`. -/
theorem c4_counts_and_health (L : Nat) (r1 r2 r3 r4 : Rng) (fuel : Nat) (res : GenResult)
    (_hL : 1 ≤ L) (hg : generateLevel L r1 r2 r3 r4 fuel = some res) :
    res.keyPositions.length = 3 + L / 2 ∧ res.zombiePositions.length = 2 + L ∧
    ∀ z ∈ createZombies res L, z.health = 2 * (L : Int) ∧ z.maxHealth = 2 * (L : Int) := by
  obtain ⟨g1, rc, sc, rs, _, _, _, _, hk, hz⟩ := generateMaze_inv hg
  refine ⟨(placeEntities_spec hk).1, (placeEntities_spec hz).1, fun z hzm => ?_⟩
  obtain ⟨p, _, rfl⟩ := List.mem_map.mp hzm
  unfold mkZombie
  constructor <;> dsimp only <;> ring

/-- C4 witness: the concrete level-1 run has 3 keys, 3 zombies, and all its
zombies have health and max health 2. -/
theorem c4_counts_and_health_witness :
    resA.keyPositions.length = 3 + 1 / 2 ∧ resA.zombiePositions.length = 2 + 1 ∧
    ∀ z ∈ createZombies resA 1, z.health = 2 * (1 : Int) ∧ z.maxHealth = 2 * (1 : Int) :=
  c4_counts_and_health 1 ⟨wStream0, 0⟩ ⟨wStream0, 0⟩ ⟨wStreamP, 0⟩ ⟨wStreamP, 0⟩ 50 resA
    (by decide) generateLevel_runA

/-- C5: the player spawn position of a completed generation lies on a floor
cell of the final grid, and its cell coordinates (the position divided by
`TILE_SIZE`) both lie in the range 1 to 3. -/
theorem c5_spawn_valid (L : Nat) (r1 r2 r3 r4 : Rng) (fuel : Nat) (res : GenResult)
    (hg : generateLevel L r1 r2 r3 r4 fuel = some res) :
    isFloor res.grid (res.playerPosition.1 / TILE_SIZE, res.playerPosition.2 / TILE_SIZE) ∧
    1 ≤ res.playerPosition.1 / TILE_SIZE ∧ res.playerPosition.1 / TILE_SIZE ≤ 3 ∧
    1 ≤ res.playerPosition.2 / TILE_SIZE ∧ res.playerPosition.2 / TILE_SIZE ≤ 3 := by
  obtain ⟨g1, rc, sc, rs, _, _, hsp, hpos, _, _⟩ := generateMaze_inv hg
  obtain ⟨hfl, hx1, hx3, hy1, hy3⟩ := spawnLoop_spec hsp
  have hdiv1 : res.playerPosition.1 / TILE_SIZE = sc.1 := by
    rw [hpos]
    simp only [TILE_SIZE]
    omega
  have hdiv2 : res.playerPosition.2 / TILE_SIZE = sc.2 := by
    rw [hpos]
    simp only [TILE_SIZE]
    omega
  rw [hdiv1, hdiv2]
  exact ⟨hfl, hx1, hx3, hy1, hy3⟩

/-- C5 witness: the concrete run spawns the player at cell `(1, 1)`, a floor
cell with both coordinates in range. -/
theorem c5_spawn_valid_witness :
    isFloor resA.grid (resA.playerPosition.1 / TILE_SIZE, resA.playerPosition.2 / TILE_SIZE) ∧
    1 ≤ resA.playerPosition.1 / TILE_SIZE ∧ resA.playerPosition.1 / TILE_SIZE ≤ 3 ∧
    1 ≤ resA.playerPosition.2 / TILE_SIZE ∧ resA.playerPosition.2 / TILE_SIZE ≤ 3 :=
  c5_spawn_valid 1 ⟨wStream0, 0⟩ ⟨wStream0, 0⟩ ⟨wStreamP, 0⟩ ⟨wStreamP, 0⟩ 50 resA
    generateLevel_runA

/-! ### A second concrete run: identical program arguments, different
`std::random_device` outcomes for the generator of `generateMaze`. -/

def gridB : Grid :=
  [[0, 0, 0, 0, 0, 0, 0, 0, 0, 0, 0, 0, 0, 0, 0, 0, 0, 0, 0, 0, 0],
   [0, 0, 0, 0, 0, 0, 0, 0, 0, 0, 0, 0, 0, 0, 0, 0, 0, 0, 0, 0, 1],
   [0, 0, 0, 0, 0, 0, 0, 0, 0, 0, 0, 0, 0, 0, 0, 0, 0, 0, 0, 0, 0],
   [1, 0, 0, 0, 0, 0, 0, 0, 0, 0, 0, 0, 0, 0, 0, 0, 0, 0, 0, 0, 0],
   [0, 0, 0, 0, 0, 0, 0, 0, 0, 0, 0, 0, 0, 0, 0, 0, 0, 0, 0, 0, 0],
   [0, 0, 0, 0, 0, 0, 0, 0, 0, 0, 0, 0, 0, 0, 0, 0, 0, 0, 0, 0, 1],
   [0, 0, 0, 0, 0, 0, 0, 0, 0, 0, 0, 0, 0, 0, 0, 0, 0, 0, 0, 0, 0],
   [0, 0, 0, 0, 0, 0, 0, 0, 0, 0, 0, 0, 0, 0, 0, 0, 0, 0, 0, 0, 0],
   [0, 0, 0, 0, 0, 0, 0, 0, 0, 0, 0, 0, 0, 0, 0, 0, 0, 0, 0, 0, 0],
   [1, 0, 0, 0, 0, 0, 0, 0, 0, 0, 0, 0, 0, 0, 0, 0, 0, 0, 0, 0, 1],
   [0, 0, 0, 0, 0, 0, 0, 0, 0, 0, 0, 0, 0, 0, 0, 0, 0, 0, 0, 0, 0],
   [0, 0, 0, 0, 0, 0, 0, 0, 0, 0, 0, 0, 0, 0, 0, 0, 0, 0, 0, 0, 0],
   [0, 0, 0, 0, 0, 0, 0, 0, 0, 0, 0, 0, 0, 0, 0, 0, 0, 0, 0, 0, 0],
   [0, 0, 0, 0, 0, 0, 0, 0, 0, 0, 0, 0, 0, 0, 0, 0, 0, 0, 0, 0, 1],
   [0, 0, 0, 0, 0, 0, 0, 0, 0, 0, 0, 0, 0, 0, 0, 0, 0, 0, 0, 0, 0],
   [1, 1, 1, 1, 1, 1, 1, 1, 1, 1, 1, 1, 1, 1, 1, 1, 1, 1, 1, 1, 1]]

def resB : GenResult :=
  { grid := gridB
    playerPosition := (64, 64)
    keyPositions := [(224, 32), (224, 32), (224, 32)]
    zombiePositions := [(224, 32), (224, 32), (224, 32)] }

set_option maxRecDepth 100000 in
theorem generateLevel_runB :
    generateLevel 1 ⟨wStream1, 0⟩ ⟨wStream0, 0⟩ ⟨wStreamP, 0⟩ ⟨wStreamP, 0⟩ 50 = some resB := by
  decide

/-! ### C6: determinism -/

/-- C6 counterexample: the source accepts no seed argument — it seeds a fresh
`std::mt19937` from `std::random_device` inside `generateMaze` (and again in
`ensureConnectivity` and in each `placeEntities` call).  Two invocations with
identical program arguments (`levelNumber = 1`) can therefore return different
grids and spawns: here only the device outcome for `generateMaze`'s generator
differs, and the two runs produce different grids and player spawns. -/
theorem c6_counterexample :
    generateLevel 1 ⟨wStream1, 0⟩ ⟨wStream0, 0⟩ ⟨wStreamP, 0⟩ ⟨wStreamP, 0⟩ 50 ≠
      generateLevel 1 ⟨wStream0, 0⟩ ⟨wStream0, 0⟩ ⟨wStreamP, 0⟩ ⟨wStreamP, 0⟩ 50 := by
  rw [generateLevel_runA, generateLevel_runB]
  decide

/-- C6 amended: generation is a deterministic function of the four random draw
streams (one per `std::mt19937` instance the source constructs: `generateMaze`'s,
`ensureConnectivity`'s, and one per `placeEntities` call); with identical
streams the outputs are identical.  But the streams come from
`std::random_device`, not from a seed argument, so two invocations with
identical program arguments may produce different results. -/
theorem c6_determinism_amended :
    (∀ (L fuel : Nat) (r1 r2 r3 r4 s1 s2 s3 s4 : Rng), r1 = s1 → r2 = s2 → r3 = s3 → r4 = s4 →
      generateLevel L r1 r2 r3 r4 fuel = generateLevel L s1 s2 s3 s4 fuel) ∧
    generateLevel 1 ⟨wStream1, 0⟩ ⟨wStream0, 0⟩ ⟨wStreamP, 0⟩ ⟨wStreamP, 0⟩ 50 ≠
      generateLevel 1 ⟨wStream0, 0⟩ ⟨wStream0, 0⟩ ⟨wStreamP, 0⟩ ⟨wStreamP, 0⟩ 50 := by
  constructor
  · rintro L fuel r1 r2 r3 r4 s1 s2 s3 s4 rfl rfl rfl rfl
    rfl
  · rw [generateLevel_runA, generateLevel_runB]
    decide

/-- C6 witness: the determinism half applied at a concrete input. -/
theorem c6_determinism_amended_witness :
    generateLevel 1 ⟨wStream0, 0⟩ ⟨wStream0, 0⟩ ⟨wStreamP, 0⟩ ⟨wStreamP, 0⟩ 50 =
      generateLevel 1 ⟨wStream0, 0⟩ ⟨wStream0, 0⟩ ⟨wStreamP, 0⟩ ⟨wStreamP, 0⟩ 50 :=
  c6_determinism_amended.1 1 50 ⟨wStream0, 0⟩ ⟨wStream0, 0⟩ ⟨wStreamP, 0⟩ ⟨wStreamP, 0⟩
    ⟨wStream0, 0⟩ ⟨wStream0, 0⟩ ⟨wStreamP, 0⟩ ⟨wStreamP, 0⟩ rfl rfl rfl rfl

/-! ### C7: entity cells are not distinct -/

/-- C7 counterexample: a full generated level in which all three keys share one
cell, and a key and a zombie share a cell — the rejection loop accepts a cell
already accepted for an earlier entity of the same category, so distinctness
fails both within and across categories. -/
theorem c7_counterexample :
    generateLevel 1 ⟨wStream0, 0⟩ ⟨wStream0, 0⟩ ⟨wStreamP, 0⟩ ⟨wStreamP, 0⟩ 50 = some resA ∧
    ¬ resA.keyPositions.Nodup ∧
    ((224, 32) : Nat × Nat) ∈ resA.keyPositions ∧
    ((224, 32) : Nat × Nat) ∈ resA.zombiePositions :=
  ⟨generateLevel_runA, by decide, by decide, by decide⟩

/-- C7 amended: what the placement constraint does guarantee is that no key or
zombie ever occupies the player spawn position or the player spawn cell (the
distance bound `5 * TILE_SIZE > 0` forces a different cell); duplicate cells
within and across the key and zombie categories are not prevented. -/
theorem c7_no_spawn_overlap (L : Nat) (r1 r2 r3 r4 : Rng) (fuel : Nat) (res : GenResult)
    (hg : generateLevel L r1 r2 r3 r4 fuel = some res) :
    ∀ p ∈ res.keyPositions ++ res.zombiePositions,
      p ≠ res.playerPosition ∧
      (p.1 / TILE_SIZE, p.2 / TILE_SIZE) ≠
        (res.playerPosition.1 / TILE_SIZE, res.playerPosition.2 / TILE_SIZE) := by
  obtain ⟨g1, rc, sc, rs, _, _, _, hpos, hk, hz⟩ := generateMaze_inv hg
  intro p hp
  have hspec : ∃ c : Cell, p = (c.1 * TILE_SIZE, c.2 * TILE_SIZE) ∧
      getCell res.grid c = 0 ∧
      ((5 * TILE_SIZE : Nat) : Int) ^ 2 ≤ distSq p res.playerPosition := by
    rcases List.mem_append.mp hp with hp' | hp'
    · exact (placeEntities_spec hk).2 p hp'
    · exact (placeEntities_spec hz).2 p hp'
  obtain ⟨c, hpc, _, hdist⟩ := hspec
  have hne : p ≠ res.playerPosition := by
    intro he
    rw [he] at hdist
    unfold distSq at hdist
    simp [TILE_SIZE] at hdist
  refine ⟨hne, fun he => hne ?_⟩
  have h1 : p.1 / TILE_SIZE = c.1 := by
    rw [hpc]
    simp only [TILE_SIZE]
    omega
  have h2 : p.2 / TILE_SIZE = c.2 := by
    rw [hpc]
    simp only [TILE_SIZE]
    omega
  have hs1 : res.playerPosition.1 / TILE_SIZE = sc.1 := by
    rw [hpos]
    simp only [TILE_SIZE]
    omega
  have hs2 : res.playerPosition.2 / TILE_SIZE = sc.2 := by
    rw [hpos]
    simp only [TILE_SIZE]
    omega
  rw [Prod.ext_iff] at he
  obtain ⟨he1, he2⟩ := he
  rw [h1, hs1] at he1
  rw [h2, hs2] at he2
  rw [hpc, hpos, he1, he2]

/-- C7 amended witness: in the concrete run no key or zombie position
coincides with the player spawn. -/
theorem c7_no_spawn_overlap_witness :
    ((224, 32) : Nat × Nat) ∈ resA.keyPositions ++ resA.zombiePositions ∧
    (((224, 32) : Nat × Nat) ≠ resA.playerPosition ∧
      ((224 : Nat) / TILE_SIZE, (32 : Nat) / TILE_SIZE) ≠
        (resA.playerPosition.1 / TILE_SIZE, resA.playerPosition.2 / TILE_SIZE)) :=
  ⟨by decide,
    c7_no_spawn_overlap 1 ⟨wStream0, 0⟩ ⟨wStream0, 0⟩ ⟨wStreamP, 0⟩ ⟨wStreamP, 0⟩ 50 resA
      generateLevel_runA (224, 32) (by decide)⟩

/-! ### C10: grid mutations after the wall fill only carve walls to floor -/

theorem punchLoop_floorSub : ∀ (cs : List Cell) (g : Grid) (r : Rng),
    FloorSub g (punchLoop cs g r).1 := by
  intro cs
  induction cs with
  | nil => intro g r; exact floorSub_refl g
  | cons c cs ih =>
    intro g r
    unfold punchLoop
    split
    · simp only [uniformN, Rng.next]
      refine floorSub_trans ?_ (ih _ _)
      split
      · exact floorSub_setFloor g c
      · exact floorSub_refl g
    · exact ih g r

theorem carveRow_floorSub (g : Grid) (y sx ex : Nat) : FloorSub g (carveRow g y sx ex) := by
  unfold carveRow
  generalize List.range' sx (ex + 1 - sx) = l
  induction l generalizing g with
  | nil => exact floorSub_refl g
  | cons a t ih =>
    simp only [List.foldl_cons]
    exact floorSub_trans (floorSub_setFloor g (a, y)) (ih _)

theorem carveCol_floorSub (g : Grid) (x sy ey : Nat) : FloorSub g (carveCol g x sy ey) := by
  unfold carveCol
  generalize List.range' sy (ey + 1 - sy) = l
  induction l generalizing g with
  | nil => exact floorSub_refl g
  | cons a t ih =>
    simp only [List.foldl_cons]
    exact floorSub_trans (floorSub_setFloor g (x, a)) (ih _)

theorem connectLoop_floorSub (c0 : List Cell) : ∀ (comps : List (List Cell)) (g : Grid) (r : Rng),
    FloorSub g (connectLoop c0 g comps r) := by
  intro comps
  induction comps with
  | nil => intro g r; exact floorSub_refl g
  | cons ci rest ih =>
    intro g r
    unfold connectLoop
    simp only [uniformN, Rng.next]
    exact floorSub_trans (floorSub_trans (carveRow_floorSub _ _ _ _) (carveCol_floorSub _ _ _ _))
      (ih _ _)

theorem ensureConnectivity_floorSub (w h : Nat) (g : Grid) (r : Rng) :
    FloorSub g (ensureConnectivity w h g r) := by
  unfold ensureConnectivity
  split
  · exact connectLoop_floorSub _ _ _ _
  · exact floorSub_refl g

theorem carveLoop_floorSub {w h : Nat} : ∀ (fuel : Nat) (g : Grid) (stack : List Cell) (r : Rng)
    (g' : Grid) (r' : Rng), carveLoop w h fuel g stack r = some (g', r') → FloorSub g g' := by
  intro fuel
  induction fuel with
  | zero => intro g stack r g' r' hc; simp [carveLoop] at hc
  | succ fuel ih =>
    intro g stack r g' r' hc
    cases stack with
    | nil =>
      unfold carveLoop at hc
      simp only [Option.some.injEq, Prod.mk.injEq] at hc
      rw [← hc.1]
      exact floorSub_refl g
    | cons c rest =>
      unfold carveLoop at hc
      rcases hm : findMove w h g c.1 c.2 (shuffle4 r).1 with _ | ⟨mid, tgt⟩
      · simp only [hm] at hc
        exact ih _ _ _ _ _ hc
      · simp only [hm] at hc
        exact floorSub_trans
          (floorSub_trans (floorSub_setFloor g mid) (floorSub_setFloor _ tgt)) (ih _ _ _ _ _ hc)

/-- C10: after the initial all-wall fill, every grid mutation of the
generation pipeline only converts cells to floor: room punching and the
connectivity repair (its components joined by carved corridors) never turn a
floor cell back into wall, the carving loop only grows the floor set, and
every cell that is floor after the maze-carving stage is still floor in the
grid handed to the caller. -/
theorem c10_floor_monotone :
    (∀ (cs : List Cell) (g : Grid) (r : Rng), FloorSub g (punchLoop cs g r).1) ∧
    (∀ (w h : Nat) (g : Grid) (r : Rng), FloorSub g (ensureConnectivity w h g r)) ∧
    (∀ (w h fuel : Nat) (g : Grid) (stack : List Cell) (r : Rng) (g' : Grid) (r' : Rng),
      carveLoop w h fuel g stack r = some (g', r') → FloorSub g g') ∧
    (∀ (w h kc zc : Nat) (r1 r2 r3 r4 : Rng) (fuel : Nat) (res : GenResult)
      (g1 : Grid) (rc : Rng),
      generateMaze w h kc zc r1 r2 r3 r4 fuel = some res →
      carveLoop w h (carveFuel w h)
        (setFloor (List.replicate h (List.replicate w 1)) (startCell w h))
        [startCell w h] r1 = some (g1, rc) →
      FloorSub g1 res.grid) := by
  refine ⟨punchLoop_floorSub, ensureConnectivity_floorSub, fun w h fuel => carveLoop_floorSub fuel,
    fun w h kc zc r1 r2 r3 r4 fuel res g1 rc hg hc => ?_⟩
  obtain ⟨g1', rc', sc, rs, hc', hgrid, _, _, _, _⟩ := generateMaze_inv hg
  rw [hc'] at hc
  simp only [Option.some.injEq, Prod.mk.injEq] at hc
  obtain ⟨rfl, rfl⟩ := hc
  rw [hgrid]
  exact floorSub_trans (punchLoop_floorSub _ _ _) (ensureConnectivity_floorSub _ _ _ _)

/-- The grid of the concrete run right after the carving loop, before room
punching. -/
def gridCarveA : Grid :=
  [[0, 0, 0, 0, 0, 0, 0, 0, 0, 0, 0, 0, 0, 0, 0, 0, 0, 0, 0, 0, 0],
   [1, 1, 1, 1, 1, 1, 1, 1, 1, 1, 1, 1, 1, 1, 1, 1, 1, 1, 1, 1, 0],
   [0, 0, 0, 0, 0, 0, 0, 0, 0, 0, 0, 0, 0, 0, 0, 0, 0, 0, 0, 0, 0],
   [0, 1, 1, 1, 1, 1, 1, 1, 1, 1, 1, 1, 1, 1, 1, 1, 1, 1, 1, 1, 1],
   [0, 0, 0, 0, 0, 0, 0, 0, 0, 0, 0, 0, 0, 0, 0, 0, 0, 0, 0, 0, 0],
   [0, 1, 1, 1, 1, 1, 1, 1, 1, 1, 1, 1, 1, 1, 1, 1, 1, 1, 1, 1, 0],
   [0, 0, 0, 0, 0, 0, 0, 1, 0, 0, 0, 0, 0, 0, 0, 0, 0, 0, 0, 0, 0],
   [1, 1, 1, 1, 1, 1, 1, 1, 0, 1, 1, 1, 1, 1, 1, 1, 1, 1, 1, 1, 1],
   [0, 0, 0, 0, 0, 0, 0, 0, 0, 1, 0, 0, 0, 0, 0, 0, 0, 0, 0, 0, 0],
   [0, 1, 1, 1, 1, 1, 1, 1, 1, 1, 1, 1, 1, 1, 1, 1, 1, 1, 1, 1, 0],
   [0, 0, 0, 0, 0, 0, 0, 0, 0, 0, 0, 0, 0, 0, 0, 0, 0, 0, 0, 0, 0],
   [0, 1, 1, 1, 1, 1, 1, 1, 1, 1, 1, 1, 1, 1, 1, 1, 1, 1, 1, 1, 1],
   [0, 0, 0, 0, 0, 0, 0, 0, 0, 0, 0, 0, 0, 0, 0, 0, 0, 0, 0, 0, 0],
   [1, 1, 1, 1, 1, 1, 1, 1, 1, 1, 1, 1, 1, 1, 1, 1, 1, 1, 1, 1, 0],
   [0, 0, 0, 0, 0, 0, 0, 0, 0, 0, 0, 0, 0, 0, 0, 0, 0, 0, 0, 0, 0],
   [1, 1, 1, 1, 1, 1, 1, 1, 1, 1, 1, 1, 1, 1, 1, 1, 1, 1, 1, 1, 1]]

set_option maxRecDepth 100000 in
theorem carveLoop_runA :
    carveLoop 21 16 (carveFuel 21 16)
      (setFloor (List.replicate 16 (List.replicate 21 1)) (startCell 21 16))
      [startCell 21 16] ⟨wStream0, 0⟩ = some (gridCarveA, ⟨wStream0, 175⟩) := rfl

/-- C10 witness: in the concrete run every maze-carved floor cell is still
floor in the final grid. -/
theorem c10_floor_monotone_witness : FloorSub gridCarveA resA.grid :=
  c10_floor_monotone.2.2.2 21 16 3 3 ⟨wStream0, 0⟩ ⟨wStream0, 0⟩ ⟨wStreamP, 0⟩ ⟨wStreamP, 0⟩ 50
    resA gridCarveA ⟨wStream0, 175⟩ generateLevel_runA carveLoop_runA

/-! ### The visited array of the flood fill -/

/-- The visited array has `h` rows of `w` entries. -/
def VisDims (vis : List (List Bool)) (w h : Nat) : Prop :=
  vis.length = h ∧ ∀ row ∈ vis, row.length = w

theorem visDims_replicate (w h : Nat) :
    VisDims (List.replicate h (List.replicate w false)) w h := by
  refine ⟨List.length_replicate .., fun row hrow => ?_⟩
  rw [List.eq_of_mem_replicate hrow, List.length_replicate]

theorem visDims_setVis {vis : List (List Bool)} {w h : Nat} (hd : VisDims vis w h) (c : Cell) :
    VisDims (setVis vis c) w h := by
  obtain ⟨hl, hr⟩ := hd
  by_cases hy : c.2 < vis.length
  · refine ⟨by simpa [setVis] using hl, fun row hrow => ?_⟩
    rcases List.mem_or_eq_of_mem_set hrow with hmem | rfl
    · exact hr _ hmem
    · rw [List.length_set]
      exact hr _ (getD_mem [] hy)
  · unfold setVis
    rw [List.set_eq_of_length_le (by omega)]
    exact ⟨hl, hr⟩

theorem getVis_setVis_ne {c d : Cell} (vis : List (List Bool)) (h : c ≠ d) :
    getVis (setVis vis c) d = getVis vis d := by
  obtain ⟨cx, cy⟩ := c
  obtain ⟨dx, dy⟩ := d
  unfold getVis setVis
  simp only [List.getD_eq_getElem?_getD]
  by_cases hy : cy = dy
  · have hx : cx ≠ dx := fun hx => h (by rw [hx, hy])
    subst hy
    by_cases hlt : cy < vis.length
    · rw [List.getElem?_set_self hlt, Option.getD_some, List.getElem?_set_ne hx]
    · rw [List.set_eq_of_length_le (by omega)]
  · rw [List.getElem?_set_ne hy]

theorem getVis_setVis_self (vis : List (List Bool)) (c : Cell) :
    getVis (setVis vis c) c = true ∨ getVis (setVis vis c) c = getVis vis c := by
  obtain ⟨cx, cy⟩ := c
  unfold getVis setVis
  simp only [List.getD_eq_getElem?_getD]
  by_cases hy : cy < vis.length
  · rw [List.getElem?_set_self hy, Option.getD_some]
    by_cases hx : cx < (vis.getD cy []).length
    · left
      rw [List.getD_eq_getElem?_getD] at hx
      rw [List.getElem?_set_self hx, Option.getD_some]
    · right
      rw [List.getD_eq_getElem?_getD] at hx
      rw [List.set_eq_of_length_le (by omega)]
  · right
    rw [List.set_eq_of_length_le (by omega)]

theorem getVis_setVis_self_of_lt {vis : List (List Bool)} {w h : Nat} {c : Cell}
    (hd : VisDims vis w h) (hx : c.1 < w) (hy : c.2 < h) : getVis (setVis vis c) c = true := by
  obtain ⟨hl, hr⟩ := hd
  have hylen : c.2 < vis.length := by omega
  have hrow : (vis.getD c.2 []).length = w := hr _ (getD_mem [] hylen)
  obtain ⟨cx, cy⟩ := c
  unfold getVis setVis
  simp only [List.getD_eq_getElem?_getD] at hrow hylen ⊢
  rw [List.getElem?_set_self hylen, Option.getD_some,
    List.getElem?_set_self (by omega), Option.getD_some]

theorem getVis_setVis_mono {vis : List (List Bool)} {d : Cell} (c : Cell)
    (hv : getVis vis d = true) : getVis (setVis vis c) d = true := by
  by_cases hcd : c = d
  · subst hcd
    rcases getVis_setVis_self vis c with h0 | h0
    · exact h0
    · rw [h0]
      exact hv
  · rw [getVis_setVis_ne vis hcd]
    exact hv

theorem getVis_oob {vis : List (List Bool)} {w h : Nat} {c : Cell} (hd : VisDims vis w h)
    (hout : w ≤ c.1 ∨ h ≤ c.2) : getVis vis c = true := by
  obtain ⟨hl, hr⟩ := hd
  rcases hout with hx | hy
  · unfold getVis
    by_cases hylt : c.2 < vis.length
    · have hrow : (vis.getD c.2 []).length = w := hr _ (getD_mem [] hylt)
      rw [List.getD_eq_getElem?_getD, List.getElem?_eq_none (by omega)]
      rfl
    · rw [List.getD_eq_getElem?_getD (l := vis), List.getElem?_eq_none (by omega)]
      simp
  · unfold getVis
    rw [List.getD_eq_getElem?_getD (l := vis), List.getElem?_eq_none (by omega)]
    simp

theorem getVis_replicate {w h : Nat} {c : Cell} (hx : c.1 < w) (hy : c.2 < h) :
    getVis (List.replicate h (List.replicate w false)) c = false := by
  unfold getVis
  rw [List.getD_eq_getElem?_getD (l := List.replicate h (List.replicate w false)),
    List.getElem?_replicate, if_pos hy, Option.getD_some,
    List.getD_eq_getElem?_getD, List.getElem?_replicate, if_pos hx]
  rfl

/-! ### Termination measure of the flood fill -/

/-- Number of unvisited entries of the visited array. -/
def unvisCount (vis : List (List Bool)) : Nat :=
  (vis.map (fun row => (row.filter (fun b => !b)).length)).sum

theorem filter_unvis_set_le (row : List Bool) : ∀ i : Nat,
    ((row.set i true).filter (fun b => !b)).length ≤ (row.filter (fun b => !b)).length := by
  induction row with
  | nil => intro i; simp
  | cons a t ih =>
    intro i
    cases i with
    | zero =>
      simp only [List.set_cons_zero, List.filter_cons]
      split <;> split <;> simp_all
    | succ j =>
      simp only [List.set_cons_succ, List.filter_cons]
      split <;> simpa using ih j

theorem filter_unvis_set_lt (row : List Bool) : ∀ i : Nat, i < row.length →
    row.getD i true = false →
    ((row.set i true).filter (fun b => !b)).length < (row.filter (fun b => !b)).length := by
  induction row with
  | nil => intro i hi; simp at hi
  | cons a t ih =>
    intro i hi hv
    cases i with
    | zero =>
      simp only [List.getD_cons_zero] at hv
      subst hv
      simp only [List.set_cons_zero, List.filter_cons]
      simp
    | succ j =>
      simp only [List.getD_cons_succ] at hv
      simp only [List.set_cons_succ, List.filter_cons]
      have hj : j < t.length := by simpa using hi
      split <;> simpa using ih j hj hv

theorem unvisCount_set_le (vis : List (List Bool)) : ∀ (cx cy : Nat),
    unvisCount (vis.set cy ((vis.getD cy []).set cx true)) ≤ unvisCount vis := by
  induction vis with
  | nil => intro cx cy; simp [unvisCount]
  | cons row t ih =>
    intro cx cy
    cases cy with
    | zero =>
      simp only [List.getD_cons_zero, List.set_cons_zero]
      unfold unvisCount
      simp only [List.map_cons, List.sum_cons]
      have h1 := filter_unvis_set_le row cx
      omega
    | succ j =>
      simp only [List.getD_cons_succ, List.set_cons_succ]
      have h2 := ih cx j
      unfold unvisCount at h2 ⊢
      simp only [List.map_cons, List.sum_cons]
      omega

theorem unvisCount_setVis_le (vis : List (List Bool)) (c : Cell) :
    unvisCount (setVis vis c) ≤ unvisCount vis :=
  unvisCount_set_le vis c.1 c.2

theorem unvisCount_set_lt (vis : List (List Bool)) : ∀ (cx cy : Nat), cy < vis.length →
    cx < (vis.getD cy []).length → (vis.getD cy []).getD cx true = false →
    unvisCount (vis.set cy ((vis.getD cy []).set cx true)) < unvisCount vis := by
  induction vis with
  | nil => intro cx cy hy; simp at hy
  | cons row t ih =>
    intro cx cy hy hx hv
    cases cy with
    | zero =>
      simp only [List.getD_cons_zero] at hx hv
      simp only [List.getD_cons_zero, List.set_cons_zero]
      unfold unvisCount
      simp only [List.map_cons, List.sum_cons]
      have h1 := filter_unvis_set_lt row cx hx hv
      omega
    | succ j =>
      simp only [List.getD_cons_succ] at hx hv
      have hj : j < t.length := by simpa using hy
      simp only [List.getD_cons_succ, List.set_cons_succ]
      have h2 := ih cx j hj hx hv
      unfold unvisCount at h2 ⊢
      simp only [List.map_cons, List.sum_cons]
      omega

theorem unvisCount_setVis_lt {vis : List (List Bool)} {w h : Nat} {c : Cell}
    (hd : VisDims vis w h) (hx : c.1 < w) (hy : c.2 < h) (hv : getVis vis c = false) :
    unvisCount (setVis vis c) < unvisCount vis := by
  obtain ⟨hl, hr⟩ := hd
  have hylen : c.2 < vis.length := by omega
  have hrow : (vis.getD c.2 []).length = w := hr _ (getD_mem [] hylen)
  exact unvisCount_set_lt vis c.1 c.2 hylen (by omega) hv

/-! ### The flood-fill neighbour list -/

set_option maxHeartbeats 2000000 in
theorem mem_nbrsOf {w h : Nat} {c n : Cell} :
    n ∈ nbrsOf w h c ↔
      ((n = (c.1 + 1, c.2) ∧ c.1 + 1 < w ∧ c.2 < h) ∨
       (n = (c.1 - 1, c.2) ∧ 1 ≤ c.1 ∧ c.1 - 1 < w ∧ c.2 < h) ∨
       (n = (c.1, c.2 + 1) ∧ c.1 < w ∧ c.2 + 1 < h) ∨
       (n = (c.1, c.2 - 1) ∧ c.1 < w ∧ 1 ≤ c.2 ∧ c.2 - 1 < h)) := by
  obtain ⟨cx, cy⟩ := c
  obtain ⟨nx, ny⟩ := n
  unfold nbrsOf
  simp only [Prod.mk.injEq]
  split <;> split <;> split <;> split <;> simp_all <;> omega

theorem nbrsOf_adjacent {w h : Nat} {c n : Cell} (hn : n ∈ nbrsOf w h c) :
    Adjacent c n ∧ n.1 < w ∧ n.2 < h := by
  rw [mem_nbrsOf] at hn
  obtain ⟨cx, cy⟩ := c
  obtain ⟨nx, ny⟩ := n
  unfold Adjacent
  simp only [Prod.mk.injEq] at hn ⊢
  rcases hn with ⟨⟨h1, h2⟩, hb⟩ | ⟨⟨h1, h2⟩, hb⟩ | ⟨⟨h1, h2⟩, hb⟩ | ⟨⟨h1, h2⟩, hb⟩ <;> omega

theorem nbrsOf_complete {w h : Nat} {c n : Cell} (ha : Adjacent c n)
    (hcx : c.1 < w) (hcy : c.2 < h) (hnx : n.1 < w) (hny : n.2 < h) :
    n ∈ nbrsOf w h c := by
  rw [mem_nbrsOf]
  obtain ⟨cx, cy⟩ := c
  obtain ⟨nx, ny⟩ := n
  unfold Adjacent at ha
  simp only [Prod.mk.injEq] at ha ⊢
  omega

/-! ### The inner flood-fill loop -/

theorem getVis_setVis_elim {vis : List (List Bool)} {c d : Cell}
    (hv : getVis (setVis vis c) d = true) : d = c ∨ getVis vis d = true := by
  by_cases hcd : c = d
  · exact Or.inl hcd.symm
  · rw [getVis_setVis_ne vis hcd] at hv
    exact Or.inr hv

theorem dfsFold_spec {w h : Nat} {g : Grid} (hd : GridDims g w h) :
    ∀ (ns : List Cell) (st : List Cell) (vis : List (List Bool)), VisDims vis w h →
    VisDims (ns.foldl (dfsPush g) (st, vis)).2 w h ∧
    (∀ c ∈ st, c ∈ (ns.foldl (dfsPush g) (st, vis)).1) ∧
    (∀ c ∈ (ns.foldl (dfsPush g) (st, vis)).1, c ∈ st ∨ (c ∈ ns ∧ isFloor g c)) ∧
    (∀ c, getVis vis c = true → getVis (ns.foldl (dfsPush g) (st, vis)).2 c = true) ∧
    (∀ c, getVis (ns.foldl (dfsPush g) (st, vis)).2 c = true →
      getVis vis c = true ∨ c ∈ (ns.foldl (dfsPush g) (st, vis)).1) ∧
    (∀ n ∈ ns, isFloor g n → getVis (ns.foldl (dfsPush g) (st, vis)).2 n = true) ∧
    2 * unvisCount (ns.foldl (dfsPush g) (st, vis)).2 + (ns.foldl (dfsPush g) (st, vis)).1.length ≤
      2 * unvisCount vis + st.length := by
  intro ns
  induction ns with
  | nil =>
    intro st vis hv
    simp only [List.foldl_nil]
    exact ⟨hv, fun c hc => hc, fun c hc => Or.inl hc, fun c hc => hc,
      fun c hc => Or.inl hc, fun n hn => absurd hn (List.not_mem_nil n), le_refl _⟩
  | cons n rest ih =>
    intro st vis hv
    simp only [List.foldl_cons]
    by_cases hp : getCell g n = 0 ∧ getVis vis n = false
    · rw [show dfsPush g (st, vis) n = (n :: st, setVis vis n) from if_pos hp]
      have hnf : isFloor g n := hp.1
      have hnb := isFloor_lt hd hnf
      have hv1 : VisDims (setVis vis n) w h := visDims_setVis hv n
      obtain ⟨k1, k2, k3, k4, k5, k6, k7⟩ := ih (n :: st) (setVis vis n) hv1
      refine ⟨k1, ?_, ?_, ?_, ?_, ?_, ?_⟩
      · intro c hc
        exact k2 c (List.mem_cons_of_mem n hc)
      · intro c hc
        rcases k3 c hc with hc' | hc'
        · rcases List.mem_cons.mp hc' with rfl | hc''
          · exact Or.inr ⟨List.mem_cons_self .., hnf⟩
          · exact Or.inl hc''
        · exact Or.inr ⟨List.mem_cons_of_mem n hc'.1, hc'.2⟩
      · intro c hc
        exact k4 c (getVis_setVis_mono n hc)
      · intro c hc
        rcases k5 c hc with hc' | hc'
        · rcases getVis_setVis_elim hc' with rfl | hc''
          · exact Or.inr (k2 c (List.mem_cons_self ..))
          · exact Or.inl hc''
        · exact Or.inr hc'
      · intro m hm hmf
        rcases List.mem_cons.mp hm with rfl | hm'
        · exact k4 m (getVis_setVis_self_of_lt hv hnb.1 hnb.2)
        · exact k6 m hm' hmf
      · have hlt : unvisCount (setVis vis n) < unvisCount vis :=
          unvisCount_setVis_lt hv hnb.1 hnb.2 hp.2
        have hlen : (n :: st).length = st.length + 1 := rfl
        omega
    · rw [show dfsPush g (st, vis) n = (st, vis) from if_neg hp]
      obtain ⟨k1, k2, k3, k4, k5, k6, k7⟩ := ih st vis hv
      refine ⟨k1, k2, ?_, k4, k5, ?_, k7⟩
      · intro c hc
        rcases k3 c hc with hc' | hc'
        · exact Or.inl hc'
        · exact Or.inr ⟨List.mem_cons_of_mem n hc'.1, hc'.2⟩
      · intro m hm hmf
        rcases List.mem_cons.mp hm with rfl | hm'
        · rcases Decidable.not_and_iff_or_not.mp hp with hnf | hnv
          · exact absurd hmf hnf
          · exact k4 m (by simpa using hnv)
        · exact k6 m hm' hmf

theorem dfsLoop_spec {w h : Nat} {g : Grid} {s : Cell} (hd : GridDims g w h) :
    ∀ (fuel : Nat) (stack : List Cell) (vis : List (List Bool)) (comp comp' : List Cell)
      (vis' : List (List Bool)),
    dfsLoop w h g fuel stack vis comp = some (comp', vis') →
    VisDims vis w h →
    (∀ c ∈ stack, getVis vis c = true ∧ isFloor g c ∧ Reach g s c) →
    (∀ c ∈ comp, getVis vis c = true ∧ isFloor g c ∧ Reach g s c) →
    (∀ c, getVis vis c = true → isFloor g c →
      c ∈ stack ∨ ∀ n, Step g c n → getVis vis n = true) →
    VisDims vis' w h ∧
    (∀ c ∈ comp', isFloor g c ∧ Reach g s c) ∧
    (∀ c, getVis vis' c = true ↔ (getVis vis c = true ∨ c ∈ comp')) ∧
    (∀ c ∈ comp, c ∈ comp') ∧ (∀ c ∈ stack, c ∈ comp') ∧
    (∀ c, getVis vis' c = true → isFloor g c → ∀ n, Step g c n → getVis vis' n = true) := by
  intro fuel
  induction fuel with
  | zero => intro stack vis comp comp' vis' hrun; simp [dfsLoop] at hrun
  | succ fuel ih =>
    intro stack vis comp comp' vis' hrun hv hstack hcomp hclose
    cases stack with
    | nil =>
      unfold dfsLoop at hrun
      simp only [Option.some.injEq, Prod.mk.injEq] at hrun
      obtain ⟨rfl, rfl⟩ := hrun
      refine ⟨hv, fun c hc => ⟨(hcomp c hc).2.1, (hcomp c hc).2.2⟩, ?_, fun c hc => hc,
        fun c hc => absurd hc (List.not_mem_nil c), ?_⟩
      · intro c
        constructor
        · exact fun hc => Or.inl hc
        · rintro (hc | hc)
          · exact hc
          · exact (hcomp c hc).1
      · intro c hc hcf n hstep
        rcases hclose c hc hcf with hmem | hcl
        · exact absurd hmem (List.not_mem_nil c)
        · exact hcl n hstep
    | cons c rest =>
      unfold dfsLoop at hrun
      obtain ⟨hc_vis, hc_floor, hc_reach⟩ := hstack c (List.mem_cons_self ..)
      have hcb := isFloor_lt hd hc_floor
      obtain ⟨k1, k2, k3, k4, k5, k6, k7⟩ := dfsFold_spec hd (nbrsOf w h c) rest vis hv
      have hstack1 : ∀ d ∈ ((nbrsOf w h c).foldl (dfsPush g) (rest, vis)).1,
          getVis ((nbrsOf w h c).foldl (dfsPush g) (rest, vis)).2 d = true ∧
          isFloor g d ∧ Reach g s d := by
        intro d hdm
        rcases k3 d hdm with hd' | ⟨hdn, hdf⟩
        · obtain ⟨hv', hf', hr'⟩ := hstack d (List.mem_cons_of_mem c hd')
          exact ⟨k4 d hv', hf', hr'⟩
        · obtain ⟨hadj, _, _⟩ := nbrsOf_adjacent hdn
          exact ⟨k6 d hdn hdf, hdf,
            reach_trans hc_reach (reach_of_step ⟨hc_floor, hdf, hadj⟩)⟩
      have hcomp1 : ∀ d ∈ comp ++ [c],
          getVis ((nbrsOf w h c).foldl (dfsPush g) (rest, vis)).2 d = true ∧
          isFloor g d ∧ Reach g s d := by
        intro d hdm
        rcases List.mem_append.mp hdm with hd' | hd'
        · obtain ⟨hv', hf', hr'⟩ := hcomp d hd'
          exact ⟨k4 d hv', hf', hr'⟩
        · rw [List.mem_singleton.mp hd']
          exact ⟨k4 c hc_vis, hc_floor, hc_reach⟩
      have hclose1 : ∀ d, getVis ((nbrsOf w h c).foldl (dfsPush g) (rest, vis)).2 d = true →
          isFloor g d → d ∈ ((nbrsOf w h c).foldl (dfsPush g) (rest, vis)).1 ∨
          ∀ n, Step g d n → getVis ((nbrsOf w h c).foldl (dfsPush g) (rest, vis)).2 n = true := by
        intro d hdv hdf
        rcases k5 d hdv with hd' | hd'
        · rcases hclose d hd' hdf with hd'' | hd''
          · rcases List.mem_cons.mp hd'' with rfl | hd3
            · right
              intro n hstep
              have hnb := isFloor_lt hd hstep.2.1
              exact k6 n (nbrsOf_complete hstep.2.2 hcb.1 hcb.2 hnb.1 hnb.2) hstep.2.1
            · exact Or.inl (k2 d hd3)
          · right
            intro n hstep
            exact k4 n (hd'' n hstep)
        · exact Or.inl hd'
      obtain ⟨m1, m2, m3, m4, m5, m6⟩ := ih _ _ _ _ _ hrun k1 hstack1 hcomp1 hclose1
      refine ⟨m1, m2, ?_, ?_, ?_, m6⟩
      · intro d
        rw [m3 d]
        constructor
        · rintro (hd' | hd')
          · rcases k5 d hd' with hd'' | hd''
            · exact Or.inl hd''
            · exact Or.inr (m5 d hd'')
          · exact Or.inr hd'
        · rintro (hd' | hd')
          · exact Or.inl (k4 d hd')
          · exact Or.inr hd'
      · intro d hdm
        exact m4 d (List.mem_append.mpr (Or.inl hdm))
      · intro d hdm
        rcases List.mem_cons.mp hdm with rfl | hd'
        · exact m4 d (List.mem_append.mpr (Or.inr (List.mem_singleton.mpr rfl)))
        · exact m5 d (k2 d hd')

theorem dfsLoop_isSome {w h : Nat} {g : Grid} (hd : GridDims g w h) :
    ∀ (fuel : Nat) (stack : List Cell) (vis : List (List Bool)) (comp : List Cell),
    VisDims vis w h → 2 * unvisCount vis + stack.length < fuel →
    (dfsLoop w h g fuel stack vis comp).isSome = true := by
  intro fuel
  induction fuel with
  | zero => intro stack vis comp _ hlt; omega
  | succ fuel ih =>
    intro stack vis comp hv hlt
    cases stack with
    | nil => simp [dfsLoop]
    | cons c rest =>
      unfold dfsLoop
      obtain ⟨k1, _, _, _, _, _, k7⟩ := dfsFold_spec hd (nbrsOf w h c) rest vis hv
      apply ih _ _ _ k1
      have hlen : (c :: rest).length = rest.length + 1 := rfl
      omega

/-! ### The component scan -/

theorem unvisCount_le {vis : List (List Bool)} {w h : Nat} (hv : VisDims vis w h) :
    unvisCount vis ≤ h * w := by
  obtain ⟨hl, hr⟩ := hv
  subst hl
  induction vis with
  | nil => simp [unvisCount]
  | cons row t ih =>
    unfold unvisCount
    simp only [List.map_cons, List.sum_cons, List.length_cons]
    have h1 : (row.filter (fun b => !b)).length ≤ row.length := List.length_filter_le _ _
    have h2 : row.length = w := hr _ (List.mem_cons_self ..)
    have h3 := ih (fun r hrm => hr r (List.mem_cons_of_mem _ hrm))
    unfold unvisCount at h3
    have h4 : (t.length + 1) * w = t.length * w + w := by ring
    omega

theorem visited_of_reach {g : Grid} {vis : List (List Bool)}
    (hclose : ∀ c, getVis vis c = true → isFloor g c → ∀ n, Step g c n → getVis vis n = true)
    {a b : Cell} (hr : Reach g a b) (ha : getVis vis a = true) : getVis vis b = true := by
  induction hr with
  | refl => exact ha
  | tail _ hstep ihr => exact hclose _ ihr hstep.1 _ hstep

theorem compScan_spec {w h : Nat} {g : Grid} (hd : GridDims g w h) :
    ∀ (cells : List Cell) (vis : List (List Bool)) (acc : List (List Cell)),
    VisDims vis w h →
    (∀ comp ∈ acc, comp ≠ [] ∧ ∀ a ∈ comp, isFloor g a ∧ ∀ b ∈ comp, Reach g a b) →
    (∀ c, isFloor g c → getVis vis c = true → ∃ comp ∈ acc, c ∈ comp) →
    (∀ c, getVis vis c = true → isFloor g c → ∀ n, Step g c n → getVis vis n = true) →
    (∀ comp ∈ compScan w h g cells vis acc,
      comp ≠ [] ∧ ∀ a ∈ comp, isFloor g a ∧ ∀ b ∈ comp, Reach g a b) ∧
    (∀ comp ∈ acc, comp ∈ compScan w h g cells vis acc) ∧
    (∀ c ∈ cells, isFloor g c → ∃ comp ∈ compScan w h g cells vis acc, c ∈ comp) := by
  intro cells
  induction cells with
  | nil =>
    intro vis acc _ hacc _ _
    unfold compScan
    exact ⟨fun comp hcm => hacc comp (List.mem_reverse.mp hcm),
      fun comp hcm => List.mem_reverse.mpr hcm,
      fun c hc => absurd hc (List.not_mem_nil c)⟩
  | cons c cs ih =>
    intro vis acc hv hacc hcover hclose
    unfold compScan
    by_cases hcond : getCell g c = 0 ∧ getVis vis c = false
    · rw [if_pos hcond]
      have hcf : isFloor g c := hcond.1
      have hcb := isFloor_lt hd hcf
      have hv1 : VisDims (setVis vis c) w h := visDims_setVis hv c
      have hsome := dfsLoop_isSome hd (dfsFuel w h) [c] (setVis vis c) []
        hv1 (by
          have hb := unvisCount_le hv1
          unfold dfsFuel
          have hlen : ([c] : List Cell).length = 1 := rfl
          have hc2 : h * w = w * h := Nat.mul_comm h w
          omega)
      rcases hdfs : dfsLoop w h g (dfsFuel w h) [c] (setVis vis c) [] with _ | ⟨comp', vis'⟩
      · rw [hdfs] at hsome
        simp at hsome
      · dsimp only
        have hstack1 : ∀ d ∈ [c], getVis (setVis vis c) d = true ∧ isFloor g d ∧ Reach g c d := by
          intro d hdm
          rw [List.mem_singleton.mp hdm]
          exact ⟨getVis_setVis_self_of_lt hv hcb.1 hcb.2, hcf, reach_refl g c⟩
        have hcomp1 : ∀ d ∈ ([] : List Cell),
            getVis (setVis vis c) d = true ∧ isFloor g d ∧ Reach g c d :=
          fun d hdm => absurd hdm (List.not_mem_nil d)
        have hclose1 : ∀ d, getVis (setVis vis c) d = true → isFloor g d →
            d ∈ [c] ∨ ∀ n, Step g d n → getVis (setVis vis c) n = true := by
          intro d hdv hdf
          rcases getVis_setVis_elim hdv with rfl | hdv'
          · exact Or.inl (List.mem_singleton.mpr rfl)
          · right
            intro n hstep
            exact getVis_setVis_mono c (hclose d hdv' hdf n hstep)
        obtain ⟨m1, m2, m3, m4, m5, m6⟩ :=
          dfsLoop_spec hd (dfsFuel w h) [c] (setVis vis c) [] comp' vis' hdfs hv1
            hstack1 hcomp1 hclose1
        have hcmem : c ∈ comp' := m5 c (List.mem_singleton.mpr rfl)
        have hacc1 : ∀ comp ∈ comp' :: acc,
            comp ≠ [] ∧ ∀ a ∈ comp, isFloor g a ∧ ∀ b ∈ comp, Reach g a b := by
          intro comp hcm
          rcases List.mem_cons.mp hcm with rfl | hcm'
          · refine ⟨fun he => by simp [he] at hcmem, fun a ham => ?_⟩
            obtain ⟨haf, har⟩ := m2 a ham
            exact ⟨haf, fun b hbm =>
              reach_trans (reach_symm har) (m2 b hbm).2⟩
          · exact hacc comp hcm'
        have hcover1 : ∀ d, isFloor g d → getVis vis' d = true → ∃ comp ∈ comp' :: acc, d ∈ comp := by
          intro d hdf hdv
          rcases (m3 d).mp hdv with hdv' | hdm
          · rcases getVis_setVis_elim hdv' with rfl | hdv''
            · exact ⟨comp', List.mem_cons_self .., hcmem⟩
            · obtain ⟨comp, hcm, hdm'⟩ := hcover d hdf hdv''
              exact ⟨comp, List.mem_cons_of_mem _ hcm, hdm'⟩
          · exact ⟨comp', List.mem_cons_self .., hdm⟩
        obtain ⟨r1, r2, r3⟩ := ih vis' (comp' :: acc) m1 hacc1 hcover1 m6
        refine ⟨r1, ?_, ?_⟩
        · intro comp hcm
          exact r2 comp (List.mem_cons_of_mem _ hcm)
        · intro d hdm hdf
          rcases List.mem_cons.mp hdm with rfl | hdm'
          · exact ⟨comp' , r2 comp' (List.mem_cons_self ..), hcmem⟩
          · exact r3 d hdm' hdf
    · rw [if_neg hcond]
      obtain ⟨r1, r2, r3⟩ := ih vis acc hv hacc hcover hclose
      refine ⟨r1, r2, ?_⟩
      intro d hdm hdf
      rcases List.mem_cons.mp hdm with rfl | hdm'
      · have hdv : getVis vis d = true := by
          rcases Decidable.not_and_iff_or_not.mp hcond with hnf | hnv
          · exact absurd hdf hnf
          · simpa using hnv
        obtain ⟨comp, hcm, hdm''⟩ := hcover d hdf hdv
        exact ⟨comp, r2 comp hcm, hdm''⟩
      · exact r3 d hdm' hdf

theorem mem_allCells {w h : Nat} {c : Cell} : c ∈ allCells w h ↔ c.1 < w ∧ c.2 < h := by
  obtain ⟨x, y⟩ := c
  unfold allCells
  simp only [List.mem_flatMap, List.mem_map, List.mem_range, Prod.mk.injEq]
  constructor
  · rintro ⟨b, hb, a, ha, rfl, rfl⟩
    exact ⟨ha, hb⟩
  · rintro ⟨hx, hy⟩
    exact ⟨y, hy, x, hx, rfl, rfl⟩

theorem getVis_replicate_closure {w h : Nat} {g : Grid} (hd : GridDims g w h) :
    ∀ c, getVis (List.replicate h (List.replicate w false)) c = true → isFloor g c →
      ∀ n, Step g c n → getVis (List.replicate h (List.replicate w false)) n = true := by
  intro c hcv hcf
  have hcb := isFloor_lt hd hcf
  rw [getVis_replicate hcb.1 hcb.2] at hcv
  exact absurd hcv (by simp)

theorem findComponents_spec {w h : Nat} {g : Grid} (hd : GridDims g w h) :
    (∀ comp ∈ findComponents w h g,
      comp ≠ [] ∧ ∀ a ∈ comp, isFloor g a ∧ ∀ b ∈ comp, Reach g a b) ∧
    (∀ c, isFloor g c → ∃ comp ∈ findComponents w h g, c ∈ comp) := by
  have hcover : ∀ c, isFloor g c →
      getVis (List.replicate h (List.replicate w false)) c = true →
      ∃ comp ∈ ([] : List (List Cell)), c ∈ comp := by
    intro c hcf hcv
    have hcb := isFloor_lt hd hcf
    rw [getVis_replicate hcb.1 hcb.2] at hcv
    exact absurd hcv (by simp)
  obtain ⟨r1, _, r3⟩ := compScan_spec hd (allCells w h)
    (List.replicate h (List.replicate w false)) [] (visDims_replicate w h)
    (fun comp hcm => absurd hcm (List.not_mem_nil comp)) hcover
    (getVis_replicate_closure hd)
  refine ⟨r1, fun c hcf => ?_⟩
  have hcb := isFloor_lt hd hcf
  exact r3 c (mem_allCells.mpr hcb) hcf

theorem compScan_length_le {w h : Nat} {g : Grid} (hd : GridDims g w h)
    (hconn : ∀ a b, isFloor g a → isFloor g b → Reach g a b) :
    ∀ (cells : List Cell) (vis : List (List Bool)) (acc : List (List Cell)),
    VisDims vis w h →
    (∀ c, getVis vis c = true → isFloor g c → ∀ n, Step g c n → getVis vis n = true) →
    (acc ≠ [] → ∀ c, isFloor g c → getVis vis c = true) →
    (compScan w h g cells vis acc).length ≤ max 1 acc.length := by
  intro cells
  induction cells with
  | nil =>
    intro vis acc _ _ _
    unfold compScan
    rw [List.length_reverse]
    omega
  | cons c cs ih =>
    intro vis acc hv hclose hfull
    unfold compScan
    by_cases hcond : getCell g c = 0 ∧ getVis vis c = false
    · rw [if_pos hcond]
      have hcf : isFloor g c := hcond.1
      have hcb := isFloor_lt hd hcf
      have hnil : acc = [] := by
        by_contra hne
        rw [hfull hne c hcf] at hcond
        exact absurd hcond.2 (by simp)
      subst hnil
      have hv1 : VisDims (setVis vis c) w h := visDims_setVis hv c
      have hsome := dfsLoop_isSome hd (dfsFuel w h) [c] (setVis vis c) []
        hv1 (by
          have hb := unvisCount_le hv1
          unfold dfsFuel
          have hlen : ([c] : List Cell).length = 1 := rfl
          have hc2 : h * w = w * h := Nat.mul_comm h w
          omega)
      rcases hdfs : dfsLoop w h g (dfsFuel w h) [c] (setVis vis c) [] with _ | ⟨comp', vis'⟩
      · rw [hdfs] at hsome
        simp at hsome
      · dsimp only
        have hstack1 : ∀ d ∈ [c], getVis (setVis vis c) d = true ∧ isFloor g d ∧ Reach g c d := by
          intro d hdm
          rw [List.mem_singleton.mp hdm]
          exact ⟨getVis_setVis_self_of_lt hv hcb.1 hcb.2, hcf, reach_refl g c⟩
        have hclose1 : ∀ d, getVis (setVis vis c) d = true → isFloor g d →
            d ∈ [c] ∨ ∀ n, Step g d n → getVis (setVis vis c) n = true := by
          intro d hdv hdf
          rcases getVis_setVis_elim hdv with rfl | hdv'
          · exact Or.inl (List.mem_singleton.mpr rfl)
          · right
            intro n hstep
            exact getVis_setVis_mono c (hclose d hdv' hdf n hstep)
        obtain ⟨m1, m2, m3, m4, m5, m6⟩ :=
          dfsLoop_spec hd (dfsFuel w h) [c] (setVis vis c) [] comp' vis' hdfs hv1
            hstack1 (fun d hdm => absurd hdm (List.not_mem_nil d)) hclose1
        have hcvis' : getVis vis' c = true :=
          (m3 c).mpr (Or.inr (m5 c (List.mem_singleton.mpr rfl)))
        have hfull1 : (comp' :: ([] : List (List Cell))) ≠ [] → ∀ d, isFloor g d →
            getVis vis' d = true := by
          intro _ d hdf
          exact visited_of_reach m6 (hconn c d hcf hdf) hcvis'
        have := ih vis' [comp'] m1 m6 hfull1
        simpa using this
    · rw [if_neg hcond]
      exact ih vis acc hv hclose hfull

theorem findComponents_single {w h : Nat} {g : Grid} (hd : GridDims g w h)
    (hconn : ∀ a b, isFloor g a → isFloor g b → Reach g a b) :
    (findComponents w h g).length ≤ 1 := by
  have := compScan_length_le hd hconn (allCells w h)
    (List.replicate h (List.replicate w false)) [] (visDims_replicate w h)
    (getVis_replicate_closure hd) (fun hne => absurd rfl hne)
  simpa [findComponents] using this

/-! ### C8: the connectivity-repair pass on an already-connected grid -/

/-- C8: on a grid whose floor cells are all mutually reachable, the repair pass
finds at most one component, leaves every cell unchanged, and running it twice
equals running it once. -/
theorem c8_repair_idempotent (w h : Nat) (g : Grid) (r r' : Rng) (hd : GridDims g w h)
    (hconn : ∀ a b, isFloor g a → isFloor g b → Reach g a b) :
    ensureConnectivity w h g r = g ∧
    ensureConnectivity w h (ensureConnectivity w h g r) r' = ensureConnectivity w h g r := by
  have hone : ∀ s : Rng, ensureConnectivity w h g s = g := by
    intro s
    have hlen := findComponents_single hd hconn
    unfold ensureConnectivity
    rcases hcomps : findComponents w h g with _ | ⟨c0, _ | ⟨ci, rest⟩⟩
    · rfl
    · rfl
    · rw [hcomps] at hlen
      simp at hlen
  refine ⟨hone r, ?_⟩
  rw [hone r]
  exact hone r'

/-- Every floor cell of the one-cell grid `[[0]]` is the cell `(0, 0)`. -/
theorem g11_floor {c : Cell} (hc : isFloor [[0]] c) : c = (0, 0) := by
  obtain ⟨x, y⟩ := c
  unfold isFloor getCell at hc
  rcases y with _ | y
  · rcases x with _ | x
    · rfl
    · simp [List.getD_eq_getElem?_getD] at hc
  · simp [List.getD_eq_getElem?_getD] at hc

/-- C8 witness: the connected one-cell grid is left unchanged by one or two
runs of the repair pass. -/
theorem c8_repair_idempotent_witness :
    ensureConnectivity 1 1 [[0]] ⟨wStream0, 0⟩ = [[0]] ∧
    ensureConnectivity 1 1 (ensureConnectivity 1 1 [[0]] ⟨wStream0, 0⟩) ⟨wStream0, 0⟩ =
      ensureConnectivity 1 1 [[0]] ⟨wStream0, 0⟩ :=
  c8_repair_idempotent 1 1 [[0]] ⟨wStream0, 0⟩ ⟨wStream0, 0⟩
    ⟨rfl, fun row hrow => by rw [List.mem_singleton.mp hrow]; rfl⟩
    (fun a b ha hb => by
      rw [g11_floor ha, g11_floor hb]
      exact reach_refl _ _)

/-! ### C1: full connectivity of the repaired grid -/

theorem gridDims_foldl_setFloor {w h : Nat} (f : Nat → Cell) :
    ∀ (l : List Nat) (g : Grid), GridDims g w h →
      GridDims (l.foldl (fun g' v => setFloor g' (f v)) g) w h := by
  intro l
  induction l with
  | nil => intro g hd; exact hd
  | cons a t ih =>
    intro g hd
    rw [List.foldl_cons]
    exact ih _ (gridDims_setFloor hd _)

theorem foldl_setFloor_floorSub (f : Nat → Cell) :
    ∀ (l : List Nat) (g : Grid), FloorSub g (l.foldl (fun g' v => setFloor g' (f v)) g) := by
  intro l
  induction l with
  | nil => intro g; exact floorSub_refl g
  | cons a t ih =>
    intro g
    rw [List.foldl_cons]
    exact floorSub_trans (floorSub_setFloor g (f a)) (ih _)

theorem foldl_setFloor_isFloor {w h : Nat} (f : Nat → Cell) :
    ∀ (l : List Nat) (g : Grid), GridDims g w h →
      ∀ v ∈ l, (f v).1 < w → (f v).2 < h →
        isFloor (l.foldl (fun g' u => setFloor g' (f u)) g) (f v) := by
  intro l
  induction l with
  | nil => intro g _ v hv; exact absurd hv (List.not_mem_nil v)
  | cons a t ih =>
    intro g hd v hv hx hy
    rw [List.foldl_cons]
    rcases List.mem_cons.mp hv with rfl | hv'
    · exact foldl_setFloor_floorSub f t _ _ (getCell_setFloor_self_of_lt hd hx hy)
    · exact ih _ (gridDims_setFloor hd _) v hv' hx hy

theorem foldl_setFloor_elim (f : Nat → Cell) :
    ∀ (l : List Nat) (g : Grid) (c : Cell),
      isFloor (l.foldl (fun g' u => setFloor g' (f u)) g) c →
      isFloor g c ∨ ∃ v ∈ l, c = f v := by
  intro l
  induction l with
  | nil => intro g c hc; exact Or.inl hc
  | cons a t ih =>
    intro g c hc
    rw [List.foldl_cons] at hc
    rcases ih _ c hc with hfl | ⟨v, hv, hcv⟩
    · rcases isFloor_setFloor_elim hfl with hca | hg
      · exact Or.inr ⟨a, List.mem_cons_self .., hca⟩
      · exact Or.inl hg
    · exact Or.inr ⟨v, List.mem_cons_of_mem _ hv, hcv⟩

theorem gridDims_carveRow {g : Grid} {w h : Nat} (hd : GridDims g w h) (y sx ex : Nat) :
    GridDims (carveRow g y sx ex) w h := by
  unfold carveRow
  exact gridDims_foldl_setFloor (fun x => (x, y)) _ g hd

theorem gridDims_carveCol {g : Grid} {w h : Nat} (hd : GridDims g w h) (x sy ey : Nat) :
    GridDims (carveCol g x sy ey) w h := by
  unfold carveCol
  exact gridDims_foldl_setFloor (fun y => (x, y)) _ g hd

theorem carveRow_isFloor {g : Grid} {w h : Nat} (hd : GridDims g w h) {y sx ex x : Nat}
    (hx : x < w) (hy : y < h) (h1 : sx ≤ x) (h2 : x ≤ ex) :
    isFloor (carveRow g y sx ex) (x, y) := by
  unfold carveRow
  exact foldl_setFloor_isFloor (fun u => (u, y)) _ g hd x
    (List.mem_range'_1.mpr (by omega)) hx hy

theorem carveCol_isFloor {g : Grid} {w h : Nat} (hd : GridDims g w h) {x sy ey y : Nat}
    (hx : x < w) (hy : y < h) (h1 : sy ≤ y) (h2 : y ≤ ey) :
    isFloor (carveCol g x sy ey) (x, y) := by
  unfold carveCol
  exact foldl_setFloor_isFloor (fun u => (x, u)) _ g hd y
    (List.mem_range'_1.mpr (by omega)) hx hy

theorem carveRow_floor_elim {g : Grid} {y sx ex : Nat} {c : Cell}
    (hc : isFloor (carveRow g y sx ex) c) :
    isFloor g c ∨ (c.2 = y ∧ sx ≤ c.1 ∧ c.1 ≤ ex) := by
  unfold carveRow at hc
  rcases foldl_setFloor_elim (fun u => (u, y)) _ g c hc with hfl | ⟨v, hv, hcv⟩
  · exact Or.inl hfl
  · rw [List.mem_range'_1] at hv
    subst hcv
    refine Or.inr ⟨rfl, ?_, ?_⟩
    · show sx ≤ v
      omega
    · show v ≤ ex
      omega

theorem carveCol_floor_elim {g : Grid} {x sy ey : Nat} {c : Cell}
    (hc : isFloor (carveCol g x sy ey) c) :
    isFloor g c ∨ (c.1 = x ∧ sy ≤ c.2 ∧ c.2 ≤ ey) := by
  unfold carveCol at hc
  rcases foldl_setFloor_elim (fun u => (x, u)) _ g c hc with hfl | ⟨v, hv, hcv⟩
  · exact Or.inl hfl
  · rw [List.mem_range'_1] at hv
    subst hcv
    refine Or.inr ⟨rfl, ?_, ?_⟩
    · show sy ≤ v
      omega
    · show v ≤ ey
      omega

theorem reach_row_add {g : Grid} {y sx ex : Nat}
    (hfl : ∀ x, sx ≤ x → x ≤ ex → isFloor g (x, y)) :
    ∀ (d a : Nat), sx ≤ a → a + d ≤ ex → Reach g (a, y) (a + d, y) := by
  intro d
  induction d with
  | zero => intro a _ _; exact reach_refl g (a, y)
  | succ d ih =>
    intro a ha hle
    refine reach_trans (ih a ha (by omega)) (reach_of_step ?_)
    refine ⟨hfl (a + d) (by omega) (by omega), hfl (a + d + 1) (by omega) (by omega), ?_⟩
    exact Or.inr ⟨rfl, Or.inl rfl⟩

theorem reach_row {g : Grid} {y sx ex : Nat}
    (hfl : ∀ x, sx ≤ x → x ≤ ex → isFloor g (x, y)) {a b : Nat}
    (ha1 : sx ≤ a) (ha2 : a ≤ ex) (hb1 : sx ≤ b) (hb2 : b ≤ ex) :
    Reach g (a, y) (b, y) := by
  rcases Nat.le_total a b with hab | hba
  · have hr := reach_row_add hfl (b - a) a ha1 (by omega)
    rwa [Nat.add_sub_cancel' hab] at hr
  · have hr := reach_row_add hfl (a - b) b hb1 (by omega)
    rw [Nat.add_sub_cancel' hba] at hr
    exact reach_symm hr

theorem reach_col_add {g : Grid} {x sy ey : Nat}
    (hfl : ∀ y, sy ≤ y → y ≤ ey → isFloor g (x, y)) :
    ∀ (d a : Nat), sy ≤ a → a + d ≤ ey → Reach g (x, a) (x, a + d) := by
  intro d
  induction d with
  | zero => intro a _ _; exact reach_refl g (x, a)
  | succ d ih =>
    intro a ha hle
    refine reach_trans (ih a ha (by omega)) (reach_of_step ?_)
    refine ⟨hfl (a + d) (by omega) (by omega), hfl (a + d + 1) (by omega) (by omega), ?_⟩
    exact Or.inl ⟨rfl, Or.inl rfl⟩

theorem reach_col {g : Grid} {x sy ey : Nat}
    (hfl : ∀ y, sy ≤ y → y ≤ ey → isFloor g (x, y)) {a b : Nat}
    (ha1 : sy ≤ a) (ha2 : a ≤ ey) (hb1 : sy ≤ b) (hb2 : b ≤ ey) :
    Reach g (x, a) (x, b) := by
  rcases Nat.le_total a b with hab | hba
  · have hr := reach_col_add hfl (b - a) a ha1 (by omega)
    rwa [Nat.add_sub_cancel' hab] at hr
  · have hr := reach_col_add hfl (a - b) b hb1 (by omega)
    rw [Nat.add_sub_cancel' hba] at hr
    exact reach_symm hr

/-- The L-shaped corridor of `ensureConnectivity` keeps the grid shape, only
adds floor, joins its two endpoints, and every cell it adds is connected to
the first endpoint. -/
theorem corridor_spec {g g2 : Grid} {w h : Nat} (hd : GridDims g w h) {p1 p2 : Cell}
    (h1 : isFloor g p1) (h2 : isFloor g p2)
    (hg2 : g2 = carveCol (carveRow g p1.2 (min p1.1 p2.1) (max p1.1 p2.1)) p2.1
      (min p1.2 p2.2) (max p1.2 p2.2)) :
    GridDims g2 w h ∧ FloorSub g g2 ∧ Reach g2 p2 p1 ∧
      ∀ c, isFloor g2 c → isFloor g c ∨ Reach g2 c p1 := by
  subst hg2
  obtain ⟨hx1, hy1⟩ := isFloor_lt hd h1
  obtain ⟨hx2, hy2⟩ := isFloor_lt hd h2
  have hdr := gridDims_carveRow hd p1.2 (min p1.1 p2.1) (max p1.1 p2.1)
  have hd2 := gridDims_carveCol hdr p2.1 (min p1.2 p2.2) (max p1.2 p2.2)
  have hsub : FloorSub g (carveCol (carveRow g p1.2 (min p1.1 p2.1) (max p1.1 p2.1)) p2.1
      (min p1.2 p2.2) (max p1.2 p2.2)) :=
    floorSub_trans (carveRow_floorSub g p1.2 (min p1.1 p2.1) (max p1.1 p2.1))
      (carveCol_floorSub _ p2.1 (min p1.2 p2.2) (max p1.2 p2.2))
  have hrow : ∀ x, min p1.1 p2.1 ≤ x → x ≤ max p1.1 p2.1 →
      isFloor (carveCol (carveRow g p1.2 (min p1.1 p2.1) (max p1.1 p2.1)) p2.1
        (min p1.2 p2.2) (max p1.2 p2.2)) (x, p1.2) := by
    intro x hxa hxb
    exact carveCol_floorSub _ p2.1 (min p1.2 p2.2) (max p1.2 p2.2) (x, p1.2)
      (carveRow_isFloor hd (by omega) hy1 hxa hxb)
  have hcol : ∀ yy, min p1.2 p2.2 ≤ yy → yy ≤ max p1.2 p2.2 →
      isFloor (carveCol (carveRow g p1.2 (min p1.1 p2.1) (max p1.1 p2.1)) p2.1
        (min p1.2 p2.2) (max p1.2 p2.2)) (p2.1, yy) := by
    intro yy hya hyb
    exact carveCol_isFloor hdr hx2 (by omega) hya hyb
  have hrowreach : ∀ x, min p1.1 p2.1 ≤ x → x ≤ max p1.1 p2.1 →
      Reach (carveCol (carveRow g p1.2 (min p1.1 p2.1) (max p1.1 p2.1)) p2.1
        (min p1.2 p2.2) (max p1.2 p2.2)) (x, p1.2) (p1.1, p1.2) :=
    fun x hxa hxb => reach_row hrow hxa hxb (by omega) (by omega)
  have hcorner : Reach (carveCol (carveRow g p1.2 (min p1.1 p2.1) (max p1.1 p2.1)) p2.1
      (min p1.2 p2.2) (max p1.2 p2.2)) (p2.1, p1.2) (p1.1, p1.2) :=
    hrowreach p2.1 (by omega) (by omega)
  have hcolreach : ∀ yy, min p1.2 p2.2 ≤ yy → yy ≤ max p1.2 p2.2 →
      Reach (carveCol (carveRow g p1.2 (min p1.1 p2.1) (max p1.1 p2.1)) p2.1
        (min p1.2 p2.2) (max p1.2 p2.2)) (p2.1, yy) (p2.1, p1.2) :=
    fun yy hya hyb => reach_col hcol hya hyb (by omega) (by omega)
  refine ⟨hd2, hsub, ?_, ?_⟩
  · exact reach_trans (hcolreach p2.2 (by omega) (by omega)) hcorner
  · intro c hc
    rcases carveCol_floor_elim hc with hc' | ⟨hcx, hca, hcb⟩
    · rcases carveRow_floor_elim hc' with hg' | ⟨hcy, hca, hcb⟩
      · exact Or.inl hg'
      · right
        show Reach _ (c.1, c.2) _
        rw [hcy]
        exact hrowreach c.1 hca hcb
    · right
      show Reach _ (c.1, c.2) _
      rw [hcx]
      exact reach_trans (hcolreach c.2 hca hcb) hcorner

theorem uniformN_lt (r : Rng) {n : Nat} (hn : 0 < n) : (uniformN r 0 (n - 1)).1 < n := by
  simp only [uniformN, Rng.next]
  have heq : n - 1 + 1 - 0 = n := by omega
  rw [heq]
  simpa using Nat.mod_lt (r.stream r.idx) hn

/-- One iteration of the corridor loop: the two corridor endpoints are randomly
chosen members of the first and the current component. -/
theorem connectLoop_cons (c0 ci : List Cell) (rest : List (List Cell)) (g : Grid) (r : Rng) :
    ∃ (p1 p2 : Cell) (r2 : Rng),
      (c0 ≠ [] → p1 ∈ c0) ∧ (ci ≠ [] → p2 ∈ ci) ∧
      connectLoop c0 g (ci :: rest) r =
        connectLoop c0
          (carveCol (carveRow g p1.2 (min p1.1 p2.1) (max p1.1 p2.1)) p2.1
            (min p1.2 p2.2) (max p1.2 p2.2)) rest r2 := by
  refine ⟨c0.getD (uniformN r 0 (c0.length - 1)).1 (0, 0),
    ci.getD (uniformN (uniformN r 0 (c0.length - 1)).2 0 (ci.length - 1)).1 (0, 0),
    (uniformN (uniformN r 0 (c0.length - 1)).2 0 (ci.length - 1)).2,
    fun hne => getD_mem _ (uniformN_lt r (List.length_pos.mpr hne)),
    fun hne => getD_mem _ (uniformN_lt _ (List.length_pos.mpr hne)), ?_⟩
  rfl

/-- The corridor loop invariant: starting from a grid in which every floor cell
either reaches the representative or lies in one of the remaining components,
it produces a grid in which every floor cell reaches the representative. -/
theorem connectLoop_spec {w h : Nat} (c0 : List Cell) (rep : Cell) (hne : c0 ≠ []) :
    ∀ (comps : List (List Cell)) (g : Grid) (r : Rng),
    GridDims g w h →
    (∀ a ∈ c0, isFloor g a ∧ Reach g a rep) →
    (∀ comp ∈ comps, comp ≠ [] ∧ ∀ a ∈ comp, isFloor g a ∧ ∀ b ∈ comp, Reach g a b) →
    (∀ c, isFloor g c → Reach g c rep ∨ ∃ comp ∈ comps, c ∈ comp) →
    GridDims (connectLoop c0 g comps r) w h ∧
    ∀ c, isFloor (connectLoop c0 g comps r) c → Reach (connectLoop c0 g comps r) c rep := by
  intro comps
  induction comps with
  | nil =>
    intro g r hd _ _ hrest
    unfold connectLoop
    refine ⟨hd, fun c hc => ?_⟩
    rcases hrest c hc with hr | ⟨comp, hcm, _⟩
    · exact hr
    · exact absurd hcm (List.not_mem_nil comp)
  | cons ci rest ih =>
    intro g r hd hc0 hcomps hrest
    obtain ⟨hcine, hcif⟩ := hcomps ci (List.mem_cons_self ..)
    obtain ⟨p1, p2, r2, hp1, hp2, heq⟩ := connectLoop_cons c0 ci rest g r
    have hp1m := hp1 hne
    have hp2m := hp2 hcine
    have h1f : isFloor g p1 := (hc0 p1 hp1m).1
    have h2f : isFloor g p2 := (hcif p2 hp2m).1
    obtain ⟨hd2, hsub, hr21, helim⟩ := corridor_spec hd h1f h2f rfl
    rw [heq]
    refine ih _ r2 hd2 ?_ ?_ ?_
    · intro a ha
      exact ⟨hsub a (hc0 a ha).1, reach_mono hsub (hc0 a ha).2⟩
    · intro comp hcm
      obtain ⟨hcne, hcf⟩ := hcomps comp (List.mem_cons_of_mem _ hcm)
      exact ⟨hcne, fun a ham => ⟨hsub a (hcf a ham).1,
        fun b hbm => reach_mono hsub ((hcf a ham).2 b hbm)⟩⟩
    · intro c hc
      have hp1rep : Reach (carveCol (carveRow g p1.2 (min p1.1 p2.1) (max p1.1 p2.1)) p2.1
          (min p1.2 p2.2) (max p1.2 p2.2)) p1 rep := reach_mono hsub (hc0 p1 hp1m).2
      rcases helim c hc with hcg | hcr
      · rcases hrest c hcg with hr | ⟨comp, hcm, hcin⟩
        · exact Or.inl (reach_mono hsub hr)
        · rcases List.mem_cons.mp hcm with rfl | hcm'
          · left
            have hcp2 : Reach g c p2 := (hcif c hcin).2 p2 hp2m
            exact reach_trans (reach_mono hsub hcp2) (reach_trans hr21 hp1rep)
          · exact Or.inr ⟨comp, hcm', hcin⟩
      · exact Or.inl (reach_trans hcr hp1rep)

/-- After the repair pass, every pair of floor cells is mutually reachable. -/
theorem ensureConnectivity_connected {w h : Nat} {g : Grid} (hd : GridDims g w h) (r : Rng) :
    GridDims (ensureConnectivity w h g r) w h ∧
    ∀ a b, isFloor (ensureConnectivity w h g r) a → isFloor (ensureConnectivity w h g r) b →
      Reach (ensureConnectivity w h g r) a b := by
  obtain ⟨hspec1, hspec2⟩ := findComponents_spec hd
  unfold ensureConnectivity
  rcases hcomps : findComponents w h g with _ | ⟨c0, rest0⟩
  · refine ⟨hd, fun a b ha hb => ?_⟩
    obtain ⟨comp, hcm, _⟩ := hspec2 a ha
    rw [hcomps] at hcm
    exact absurd hcm (List.not_mem_nil comp)
  · rcases rest0 with _ | ⟨ci, rest⟩
    · refine ⟨hd, fun a b ha hb => ?_⟩
      obtain ⟨compa, hcma, hain⟩ := hspec2 a ha
      obtain ⟨compb, hcmb, hbin⟩ := hspec2 b hb
      rw [hcomps] at hcma hcmb
      rw [List.mem_singleton.mp hcma] at hain
      rw [List.mem_singleton.mp hcmb] at hbin
      have hc0mem : c0 ∈ findComponents w h g := by
        rw [hcomps]
        exact List.mem_singleton.mpr rfl
      exact ((hspec1 c0 hc0mem).2 a hain).2 b hbin
    · have hc0mem : c0 ∈ findComponents w h g := by
        rw [hcomps]
        exact List.mem_cons_self ..
      have hc0ne : c0 ≠ [] := (hspec1 c0 hc0mem).1
      have hrepm : c0.getD 0 (0, 0) ∈ c0 := getD_mem _ (List.length_pos.mpr hc0ne)
      have hc0m : ∀ a ∈ c0, isFloor g a ∧ Reach g a (c0.getD 0 (0, 0)) := by
        intro a ha
        obtain ⟨haf, har⟩ := (hspec1 c0 hc0mem).2 a ha
        exact ⟨haf, har _ hrepm⟩
      have hcompsm : ∀ comp ∈ ci :: rest, comp ≠ [] ∧
          ∀ a ∈ comp, isFloor g a ∧ ∀ b ∈ comp, Reach g a b := by
        intro comp hcm
        refine hspec1 comp ?_
        rw [hcomps]
        exact List.mem_cons_of_mem _ hcm
      have hrest : ∀ c, isFloor g c → Reach g c (c0.getD 0 (0, 0)) ∨
          ∃ comp ∈ ci :: rest, c ∈ comp := by
        intro c hc
        obtain ⟨comp, hcm, hcin⟩ := hspec2 c hc
        rw [hcomps] at hcm
        rcases List.mem_cons.mp hcm with rfl | hcm'
        · left
          exact ((hspec1 _ hc0mem).2 c hcin).2 _ hrepm
        · exact Or.inr ⟨comp, hcm', hcin⟩
      obtain ⟨hdims, hall⟩ := connectLoop_spec c0 (c0.getD 0 (0, 0)) hc0ne (ci :: rest) g r
        hd hc0m hcompsm hrest
      refine ⟨hdims, fun a b ha hb => ?_⟩
      exact reach_trans (hall a ha) (reach_symm (hall b hb))

theorem gridDims_punchLoop {w h : Nat} : ∀ (cs : List Cell) (g : Grid) (r : Rng),
    GridDims g w h → GridDims (punchLoop cs g r).1 w h := by
  intro cs
  induction cs with
  | nil => intro g r hd; exact hd
  | cons c cs ih =>
    intro g r hd
    unfold punchLoop
    split
    · simp only [uniformN, Rng.next]
      apply ih
      split
      · exact gridDims_setFloor hd c
      · exact hd
    · exact ih _ _ hd

theorem gridDims_carveLoop {w h : Nat} : ∀ (fuel : Nat) (g : Grid) (stack : List Cell) (r : Rng)
    (g' : Grid) (r' : Rng), carveLoop w h fuel g stack r = some (g', r') →
    GridDims g w h → GridDims g' w h := by
  intro fuel
  induction fuel with
  | zero => intro g stack r g' r' hc; simp [carveLoop] at hc
  | succ fuel ih =>
    intro g stack r g' r' hc hd
    cases stack with
    | nil =>
      unfold carveLoop at hc
      simp only [Option.some.injEq, Prod.mk.injEq] at hc
      rw [← hc.1]
      exact hd
    | cons c rest =>
      unfold carveLoop at hc
      rcases hm : findMove w h g c.1 c.2 (shuffle4 r).1 with _ | ⟨mid, tgt⟩
      · simp only [hm] at hc
        exact ih _ _ _ _ _ hc hd
      · simp only [hm] at hc
        exact ih _ _ _ _ _ hc (gridDims_setFloor (gridDims_setFloor hd mid) tgt)

/-- C1: for every completed generation, the player spawn cell is a floor cell
and a flood fill from it reaches every floor cell of the final grid: the floor
cells form a single connected component under 4-directional adjacency. -/
theorem c1_connectivity (L : Nat) (r1 r2 r3 r4 : Rng) (fuel : Nat) (res : GenResult)
    (hg : generateLevel L r1 r2 r3 r4 fuel = some res) :
    isFloor res.grid (res.playerPosition.1 / TILE_SIZE, res.playerPosition.2 / TILE_SIZE) ∧
    ∀ c, isFloor res.grid c →
      Reach res.grid (res.playerPosition.1 / TILE_SIZE, res.playerPosition.2 / TILE_SIZE) c := by
  obtain ⟨g1, rc, sc, rs, hcarve, hgrid, hsp, hpos, _, _⟩ := generateMaze_inv hg
  have hd0 : GridDims (setFloor (List.replicate (15 + L) (List.replicate (20 + L) 1))
      (startCell (20 + L) (15 + L))) (20 + L) (15 + L) :=
    gridDims_setFloor (gridDims_replicate _ _ _) _
  have hd1 : GridDims g1 (20 + L) (15 + L) := gridDims_carveLoop _ _ _ _ _ _ hcarve hd0
  have hdp : GridDims (punch (20 + L) (15 + L) g1 rc).1 (20 + L) (15 + L) :=
    gridDims_punchLoop _ _ _ hd1
  obtain ⟨_, hconn⟩ := ensureConnectivity_connected hdp r2
  have hconn' : ∀ a b, isFloor res.grid a → isFloor res.grid b → Reach res.grid a b := by
    rw [hgrid]
    exact hconn
  obtain ⟨hscf, _, _, _, _⟩ := spawnLoop_spec hsp
  have hdiv1 : res.playerPosition.1 / TILE_SIZE = sc.1 := by
    rw [hpos]
    simp only [TILE_SIZE]
    omega
  have hdiv2 : res.playerPosition.2 / TILE_SIZE = sc.2 := by
    rw [hpos]
    simp only [TILE_SIZE]
    omega
  have hcell : ((res.playerPosition.1 / TILE_SIZE, res.playerPosition.2 / TILE_SIZE) : Cell)
      = sc := by
    rw [hdiv1, hdiv2]
  rw [hcell]
  exact ⟨hscf, fun c hc => hconn' sc c hscf hc⟩

/-- C1 witness: in the concrete run, the spawn cell `(1, 1)` floods to every
floor cell of the final grid. -/
theorem c1_connectivity_witness :
    isFloor resA.grid (resA.playerPosition.1 / TILE_SIZE, resA.playerPosition.2 / TILE_SIZE) ∧
    ∀ c, isFloor resA.grid c →
      Reach resA.grid (resA.playerPosition.1 / TILE_SIZE, resA.playerPosition.2 / TILE_SIZE) c :=
  c1_connectivity 1 ⟨wStream0, 0⟩ ⟨wStream0, 0⟩ ⟨wStreamP, 0⟩ ⟨wStreamP, 0⟩ 50 resA
    generateLevel_runA


/-! ### C2: the carved grid is a perfect maze -/

open SimpleGraph

/-- The graph of the floor cells of a grid: two cells are joined exactly when
both are floor and 4-directionally adjacent (wall cells are isolated). -/
def mazeGraph (g : Grid) : SimpleGraph Cell where
  Adj a b := Step g a b
  symm := fun _ _ hab => step_swap hab
  loopless := fun _ haa => absurd rfl (Adjacent.ne haa.2.2)

theorem adjacent_cases {v a : Cell} (h : Adjacent v a) :
    a = (v.1 + 1, v.2) ∨ (1 ≤ v.1 ∧ a = (v.1 - 1, v.2)) ∨
    a = (v.1, v.2 + 1) ∨ (1 ≤ v.2 ∧ a = (v.1, v.2 - 1)) := by
  obtain ⟨vx, vy⟩ := v
  obtain ⟨ax, ay⟩ := a
  unfold Adjacent at h
  dsimp only at h ⊢
  simp only [Prod.mk.injEq]
  omega

theorem isAcyclic_of_floor_subsingleton {g : Grid}
    (hs : ∀ a b, isFloor g a → isFloor g b → a = b) : (mazeGraph g).IsAcyclic := by
  intro u c hc
  cases c with
  | nil => exact Walk.IsCycle.not_of_nil hc
  | cons h1 q => exact Adjacent.ne h1.2.2 (hs _ _ h1.1 h1.2.1)

/-- Adding one pendant cell (a new floor cell with at most one floor
neighbour) cannot create a cycle. -/
theorem isAcyclic_pendant {g g' : Grid} {v : Cell}
    (helim : ∀ c, isFloor g' c → isFloor g c ∨ c = v)
    (hdeg : ∀ a b, Step g' v a → Step g' v b → a = b)
    (hac : (mazeGraph g).IsAcyclic) : (mazeGraph g').IsAcyclic := by
  intro u c hc
  by_cases hv : v ∈ c.support
  · have hc' : (c.rotate hv).IsCycle := hc.rotate hv
    generalize c.rotate hv = c' at hc'
    cases c' with
    | nil => exact Walk.IsCycle.not_of_nil hc'
    | cons h1 q =>
      rename_i w1
      have hne : v ≠ w1 := (mazeGraph g').ne_of_adj h1
      obtain ⟨w2, h2, q2, hq2⟩ := Walk.exists_eq_cons_of_ne hne q.reverse
      have he2 : s(v, w2) ∈ q.edges := by
        have hmem : s(v, w2) ∈ q.reverse.edges := by
          rw [hq2, Walk.edges_cons]
          exact List.mem_cons_self ..
        rwa [Walk.edges_reverse, List.mem_reverse] at hmem
      have hnd := hc'.isCircuit.isTrail.edges_nodup
      rw [Walk.edges_cons] at hnd
      obtain ⟨hni, _⟩ := List.nodup_cons.mp hnd
      obtain rfl := hdeg w1 w2 h1 h2
      exact hni he2
  · have hedges : ∀ e, e ∈ c.edges → e ∈ (mazeGraph g).edgeSet := by
      intro e
      refine Sym2.ind (fun a b he => ?_) e
      have hadj : (mazeGraph g').Adj a b := c.adj_of_mem_edges he
      have hav : a ≠ v := fun hh => hv (hh ▸ c.fst_mem_support_of_mem_edges he)
      have hbv : b ≠ v := fun hh => hv (hh ▸ c.snd_mem_support_of_mem_edges he)
      rw [mem_edgeSet]
      obtain ⟨haf, hbf, hab⟩ := hadj
      rcases helim a haf with haf' | rfl
      · rcases helim b hbf with hbf' | rfl
        · exact ⟨haf', hbf', hab⟩
        · exact absurd rfl hbv
      · exact absurd rfl hav
    exact hac (c.transfer (mazeGraph g) hedges) (hc.transfer hedges)

theorem reach_reachable {g : Grid} {a b : Cell} (h : Reach g a b) :
    (mazeGraph g).Reachable a b := by
  induction h with
  | refl => exact Reachable.refl a
  | tail _ hstep ih => exact Reachable.trans ih (Adj.reachable hstep)

theorem unique_path_of_acyclic {g : Grid} (hac : (mazeGraph g).IsAcyclic) {a b : Cell}
    (hr : (mazeGraph g).Reachable a b) :
    ∃! p : (mazeGraph g).Walk a b, p.IsPath := by
  obtain ⟨p0⟩ := hr
  refine ⟨p0.toPath.val, p0.toPath.property, fun q hq => ?_⟩
  exact congrArg Subtype.val (hac.path_unique ⟨q, hq⟩ p0.toPath)

theorem getCell_replicate (w h : Nat) (c : Cell) :
    getCell (List.replicate h (List.replicate w 1)) c = 1 := by
  rcases Nat.lt_or_ge c.1 w with hx | hx
  · rcases Nat.lt_or_ge c.2 h with hy | hy
    · unfold getCell
      rw [List.getD_eq_getElem?_getD (l := List.replicate h (List.replicate w 1)),
        List.getElem?_replicate, if_pos hy, Option.getD_some,
        List.getD_eq_getElem?_getD, List.getElem?_replicate, if_pos hx]
      rfl
    · exact getCell_oob (gridDims_replicate w h 1) (Or.inr hy)
  · exact getCell_oob (gridDims_replicate w h 1) (Or.inl hx)

theorem carveLoop_stuck {w h : Nat} (hwh : w = 0 ∨ h = 0) :
    ∀ (fuel : Nat) (g : Grid) (stack : List Cell) (r : Rng) (g2 : Grid) (r2 : Rng),
    carveLoop w h fuel g stack r = some (g2, r2) → g2 = g := by
  intro fuel
  induction fuel with
  | zero => intro g stack r g2 r2 hc; simp [carveLoop] at hc
  | succ fuel ih =>
    intro g stack r g2 r2 hc
    cases stack with
    | nil =>
      unfold carveLoop at hc
      simp only [Option.some.injEq, Prod.mk.injEq] at hc
      exact hc.1.symm
    | cons c rest =>
      unfold carveLoop at hc
      rcases hm : findMove w h g c.1 c.2 (shuffle4 r).1 with _ | ⟨mid, tgt⟩
      · simp only [hm] at hc
        exact ih _ _ _ _ _ hc
      · exfalso
        obtain ⟨_, d, hcand⟩ := findMove_spec hm
        obtain ⟨ht1, ht2, _⟩ := cand_spec hcand
        omega

/-- Geometry of one carve candidate: the intermediate cell is the corridor
midpoint between the source and the target, the target keeps the source's
parity class, and every cell adjacent to the midpoint other than the two
endpoints has both coordinates of the opposite parity. -/
theorem cand_geometry {w h d : Nat} (s src : Cell) {mid tgt : Cell}
    (hc : cand w h src.1 src.2 d = some (mid, tgt))
    (hsx : src.1 % 2 = s.1 % 2) (hsy : src.2 % 2 = s.2 % 2) :
    Adjacent src mid ∧ Adjacent mid tgt ∧
    tgt.1 % 2 = s.1 % 2 ∧ tgt.2 % 2 = s.2 % 2 ∧
    (mid.1 % 2 = s.1 % 2 ∨ mid.2 % 2 = s.2 % 2) ∧
    (src.1 < w ∧ src.2 < h → mid.1 < w ∧ mid.2 < h) ∧
    (∀ n, Adjacent mid n → n = src ∨ n = tgt ∨
      (n.1 % 2 ≠ s.1 % 2 ∧ n.2 % 2 ≠ s.2 % 2)) ∧
    (mid.1 % 2 ≠ s.1 % 2 → 1 ≤ mid.1 ∧
      ((mid.1 - 1, mid.2) = src ∨ (mid.1 - 1, mid.2) = tgt) ∧
      ((mid.1 + 1, mid.2) = src ∨ (mid.1 + 1, mid.2) = tgt)) ∧
    (mid.2 % 2 ≠ s.2 % 2 → 1 ≤ mid.2 ∧
      ((mid.1, mid.2 - 1) = src ∨ (mid.1, mid.2 - 1) = tgt) ∧
      ((mid.1, mid.2 + 1) = src ∨ (mid.1, mid.2 + 1) = tgt)) := by
  rcases cand_cases hc with ⟨rfl, rfl, hb1, hb2⟩ | ⟨hx2, rfl, rfl, hb1, hb2⟩ |
    ⟨rfl, rfl, hb1, hb2⟩ | ⟨hy2, rfl, rfl, hb1, hb2⟩
  · refine ⟨Or.inr ⟨rfl, Or.inl rfl⟩, Or.inr ⟨rfl, Or.inl rfl⟩,
      by show (src.1 + 2) % 2 = s.1 % 2; omega, hsy, Or.inr hsy,
      fun hb => ⟨by show src.1 + 1 < w; omega, hb.2⟩,
      ?_, ?_, fun hodd => absurd hsy hodd⟩
    · intro n hn
      rcases adjacent_cases hn with hne | ⟨hge, hne⟩ | hne | ⟨hge, hne⟩ <;> subst hne <;>
        simp only [Prod.ext_iff, true_and, and_true, true_or, or_true, false_and,
          and_false, false_or, or_false] at * <;> omega
    · intro hodd
      refine ⟨by show 1 ≤ src.1 + 1; omega, Or.inl ?_, Or.inr ?_⟩
      · show (src.1 + 1 - 1, src.2) = src
        rw [Nat.add_sub_cancel]
      · show (src.1 + 1 + 1, src.2) = (src.1 + 2, src.2)
        rfl
  · refine ⟨Or.inr ⟨rfl, Or.inr (by show src.1 - 1 + 1 = src.1; omega)⟩,
      Or.inr ⟨rfl, Or.inr (by show src.1 - 2 + 1 = src.1 - 1; omega)⟩,
      by show (src.1 - 2) % 2 = s.1 % 2; omega, hsy, Or.inr hsy,
      fun hb => ⟨by show src.1 - 1 < w; omega, hb.2⟩,
      ?_, ?_, fun hodd => absurd hsy hodd⟩
    · intro n hn
      rcases adjacent_cases hn with hne | ⟨hge, hne⟩ | hne | ⟨hge, hne⟩ <;> subst hne <;>
        simp only [Prod.ext_iff, true_and, and_true, true_or, or_true, false_and,
          and_false, false_or, or_false] at * <;> omega
    · intro hodd
      refine ⟨by show 1 ≤ src.1 - 1; omega, Or.inr ?_, Or.inl ?_⟩
      · show (src.1 - 1 - 1, src.2) = (src.1 - 2, src.2)
        rfl
      · show (src.1 - 1 + 1, src.2) = src
        rw [show src.1 - 1 + 1 = src.1 by omega]
  · refine ⟨Or.inl ⟨rfl, Or.inl rfl⟩, Or.inl ⟨rfl, Or.inl rfl⟩,
      hsx, by show (src.2 + 2) % 2 = s.2 % 2; omega, Or.inl hsx,
      fun hb => ⟨hb.1, by show src.2 + 1 < h; omega⟩,
      ?_, fun hodd => absurd hsx hodd, ?_⟩
    · intro n hn
      rcases adjacent_cases hn with hne | ⟨hge, hne⟩ | hne | ⟨hge, hne⟩ <;> subst hne <;>
        simp only [Prod.ext_iff, true_and, and_true, true_or, or_true, false_and,
          and_false, false_or, or_false] at * <;> omega
    · intro hodd
      refine ⟨by show 1 ≤ src.2 + 1; omega, Or.inl ?_, Or.inr ?_⟩
      · show (src.1, src.2 + 1 - 1) = src
        rw [Nat.add_sub_cancel]
      · show (src.1, src.2 + 1 + 1) = (src.1, src.2 + 2)
        rfl
  · refine ⟨Or.inl ⟨rfl, Or.inr (by show src.2 - 1 + 1 = src.2; omega)⟩,
      Or.inl ⟨rfl, Or.inr (by show src.2 - 2 + 1 = src.2 - 1; omega)⟩,
      hsx, by show (src.2 - 2) % 2 = s.2 % 2; omega, Or.inl hsx,
      fun hb => ⟨hb.1, by show src.2 - 1 < h; omega⟩,
      ?_, fun hodd => absurd hsx hodd, ?_⟩
    · intro n hn
      rcases adjacent_cases hn with hne | ⟨hge, hne⟩ | hne | ⟨hge, hne⟩ <;> subst hne <;>
        simp only [Prod.ext_iff, true_and, and_true, true_or, or_true, false_and,
          and_false, false_or, or_false] at * <;> omega
    · intro hodd
      refine ⟨by show 1 ≤ src.2 - 1; omega, Or.inr ?_, Or.inl ?_⟩
      · show (src.1, src.2 - 1 - 1) = (src.1, src.2 - 2)
        rfl
      · show (src.1, src.2 - 1 + 1) = src
        rw [show src.2 - 1 + 1 = src.2 by omega]

/-- One successful carve: the midpoint and the target are fresh wall cells, the
target is a pendant vertex behind the midpoint, and all maze invariants are
preserved. -/
theorem carve_step {w h d : Nat} {g : Grid} (s src : Cell) {mid tgt : Cell}
    (hd : GridDims g w h)
    (hcand : cand w h src.1 src.2 d = some (mid, tgt))
    (hwall : getCell g tgt = 1)
    (hsrcf : isFloor g src)
    (hsx : src.1 % 2 = s.1 % 2) (hsy : src.2 % 2 = s.2 % 2)
    (hP1 : ∀ c, isFloor g c → c.1 % 2 = s.1 % 2 ∨ c.2 % 2 = s.2 % 2)
    (hP2H : ∀ c, isFloor g c → c.1 % 2 ≠ s.1 % 2 →
      1 ≤ c.1 ∧ isFloor g (c.1 - 1, c.2) ∧ isFloor g (c.1 + 1, c.2))
    (hP2V : ∀ c, isFloor g c → c.2 % 2 ≠ s.2 % 2 →
      1 ≤ c.2 ∧ isFloor g (c.1, c.2 - 1) ∧ isFloor g (c.1, c.2 + 1))
    (hPR : ∀ c, isFloor g c → Reach g c s)
    (hPA : (mazeGraph g).IsAcyclic) :
    isFloor (setFloor (setFloor g mid) tgt) tgt ∧
    tgt.1 % 2 = s.1 % 2 ∧ tgt.2 % 2 = s.2 % 2 ∧
    (∀ c, isFloor (setFloor (setFloor g mid) tgt) c →
      c.1 % 2 = s.1 % 2 ∨ c.2 % 2 = s.2 % 2) ∧
    (∀ c, isFloor (setFloor (setFloor g mid) tgt) c → c.1 % 2 ≠ s.1 % 2 →
      1 ≤ c.1 ∧ isFloor (setFloor (setFloor g mid) tgt) (c.1 - 1, c.2) ∧
        isFloor (setFloor (setFloor g mid) tgt) (c.1 + 1, c.2)) ∧
    (∀ c, isFloor (setFloor (setFloor g mid) tgt) c → c.2 % 2 ≠ s.2 % 2 →
      1 ≤ c.2 ∧ isFloor (setFloor (setFloor g mid) tgt) (c.1, c.2 - 1) ∧
        isFloor (setFloor (setFloor g mid) tgt) (c.1, c.2 + 1)) ∧
    (∀ c, isFloor (setFloor (setFloor g mid) tgt) c →
      Reach (setFloor (setFloor g mid) tgt) c s) ∧
    (mazeGraph (setFloor (setFloor g mid) tgt)).IsAcyclic := by
  obtain ⟨hadj1, hadj2, htx, hty, hmp1, hmb, hnbr, hP2Hm, hP2Vm⟩ :=
    cand_geometry s src hcand hsx hsy
  obtain ⟨ht1, ht2, hmt⟩ := cand_spec hcand
  obtain ⟨hm1, hm2⟩ := hmb (isFloor_lt hd hsrcf)
  have hdm : GridDims (setFloor g mid) w h := gridDims_setFloor hd mid
  have hsub : FloorSub g (setFloor (setFloor g mid) tgt) :=
    floorSub_trans (floorSub_setFloor g mid) (floorSub_setFloor _ tgt)
  have hmidf : isFloor (setFloor (setFloor g mid) tgt) mid :=
    floorSub_setFloor _ tgt mid (getCell_setFloor_self_of_lt hd hm1 hm2)
  have htgtf : isFloor (setFloor (setFloor g mid) tgt) tgt :=
    getCell_setFloor_self_of_lt hdm ht1 ht2
  have hE : ∀ n, isFloor g n → ¬ Adjacent n tgt := by
    intro n hnf hadj
    rcases adjacent_cases hadj with hne | ⟨hge, hne⟩ | hne | ⟨hge, hne⟩
    · have hxe : tgt.1 = n.1 + 1 := by rw [hne]
      have hye : tgt.2 = n.2 := by rw [hne]
      obtain ⟨_, _, hfl⟩ := hP2H n hnf (by omega)
      rw [← hne] at hfl
      unfold isFloor at hfl
      omega
    · have hxe : tgt.1 = n.1 - 1 := by rw [hne]
      have hye : tgt.2 = n.2 := by rw [hne]
      obtain ⟨_, hfl, _⟩ := hP2H n hnf (by omega)
      rw [← hne] at hfl
      unfold isFloor at hfl
      omega
    · have hxe : tgt.1 = n.1 := by rw [hne]
      have hye : tgt.2 = n.2 + 1 := by rw [hne]
      obtain ⟨_, _, hfl⟩ := hP2V n hnf (by omega)
      rw [← hne] at hfl
      unfold isFloor at hfl
      omega
    · have hxe : tgt.1 = n.1 := by rw [hne]
      have hye : tgt.2 = n.2 - 1 := by rw [hne]
      obtain ⟨_, hfl, _⟩ := hP2V n hnf (by omega)
      rw [← hne] at hfl
      unfold isFloor at hfl
      omega
  have helim1 : ∀ c, isFloor (setFloor g mid) c → isFloor g c ∨ c = mid := by
    intro c hc
    rcases isFloor_setFloor_elim hc with h1 | h1
    · exact Or.inr h1
    · exact Or.inl h1
  have huniq1 : ∀ a, Step (setFloor g mid) mid a → a = src := by
    intro a hstep
    have haf := hstep.2.1
    have hadj := hstep.2.2
    rcases hnbr a hadj with rfl | rfl | ⟨hpx, hpy⟩
    · rfl
    · exfalso
      rcases helim1 _ haf with hgf | hgm
      · unfold isFloor at hgf
        omega
      · exact hmt hgm.symm
    · exfalso
      rcases helim1 _ haf with hgf | rfl
      · rcases hP1 a hgf with hc1 | hc2
        · exact hpx hc1
        · exact hpy hc2
      · exact Adjacent.ne hadj rfl
  have hacm : (mazeGraph (setFloor g mid)).IsAcyclic :=
    isAcyclic_pendant helim1 (fun a b ha hb => (huniq1 a ha).trans (huniq1 b hb).symm) hPA
  have helim2 : ∀ c, isFloor (setFloor (setFloor g mid) tgt) c →
      isFloor (setFloor g mid) c ∨ c = tgt := by
    intro c hc
    rcases isFloor_setFloor_elim hc with h1 | h1
    · exact Or.inr h1
    · exact Or.inl h1
  have huniq2 : ∀ a, Step (setFloor (setFloor g mid) tgt) tgt a → a = mid := by
    intro a hstep
    have haf := hstep.2.1
    have hadj := hstep.2.2
    rcases helim2 _ haf with hgm | rfl
    · rcases helim1 _ hgm with hgf | rfl
      · exact absurd (adjacent_swap hadj) (hE a hgf)
      · rfl
    · exact absurd rfl (Adjacent.ne hadj)
  have hac2 : (mazeGraph (setFloor (setFloor g mid) tgt)).IsAcyclic :=
    isAcyclic_pendant helim2 (fun a b ha hb => (huniq2 a ha).trans (huniq2 b hb).symm) hacm
  have helim : ∀ c, isFloor (setFloor (setFloor g mid) tgt) c →
      isFloor g c ∨ c = mid ∨ c = tgt := by
    intro c hc
    rcases helim2 c hc with h1 | rfl
    · rcases helim1 c h1 with h2 | rfl
      · exact Or.inl h2
      · exact Or.inr (Or.inl rfl)
    · exact Or.inr (Or.inr rfl)
  have hsrcf2 : isFloor (setFloor (setFloor g mid) tgt) src := hsub src hsrcf
  have hmreach : Reach (setFloor (setFloor g mid) tgt) mid s :=
    reach_trans (reach_of_step ⟨hmidf, hsrcf2, adjacent_swap hadj1⟩)
      (reach_mono hsub (hPR src hsrcf))
  have htreach : Reach (setFloor (setFloor g mid) tgt) tgt s :=
    reach_trans (reach_of_step ⟨htgtf, hmidf, adjacent_swap hadj2⟩) hmreach
  refine ⟨htgtf, htx, hty, ?_, ?_, ?_, ?_, hac2⟩
  · intro c hc
    rcases helim c hc with h1 | rfl | rfl
    · exact hP1 c h1
    · exact hmp1
    · exact Or.inl htx
  · intro c hc hodd
    rcases helim c hc with h1 | rfl | rfl
    · obtain ⟨hge, hf1, hf2⟩ := hP2H c h1 hodd
      exact ⟨hge, hsub _ hf1, hsub _ hf2⟩
    · obtain ⟨hge, he1, he2⟩ := hP2Hm hodd
      refine ⟨hge, ?_, ?_⟩
      · rcases he1 with he | he <;> rw [he]
        · exact hsrcf2
        · exact htgtf
      · rcases he2 with he | he <;> rw [he]
        · exact hsrcf2
        · exact htgtf
    · exact absurd htx hodd
  · intro c hc hodd
    rcases helim c hc with h1 | rfl | rfl
    · obtain ⟨hge, hf1, hf2⟩ := hP2V c h1 hodd
      exact ⟨hge, hsub _ hf1, hsub _ hf2⟩
    · obtain ⟨hge, he1, he2⟩ := hP2Vm hodd
      refine ⟨hge, ?_, ?_⟩
      · rcases he1 with he | he <;> rw [he]
        · exact hsrcf2
        · exact htgtf
      · rcases he2 with he | he <;> rw [he]
        · exact hsrcf2
        · exact htgtf
    · exact absurd hty hodd
  · intro c hc
    rcases helim c hc with h1 | rfl | rfl
    · exact reach_mono hsub (hPR c h1)
    · exact hmreach
    · exact htreach

/-- The carving-loop invariant: connectivity to the start cell and acyclicity
of the floor graph are maintained to the end of the loop. -/
theorem carveLoop_invariant {w h : Nat} :
    ∀ (fuel : Nat) (g : Grid) (stack : List Cell) (r : Rng) (g2 : Grid) (r2 : Rng),
    carveLoop w h fuel g stack r = some (g2, r2) →
    GridDims g w h →
    (∀ c ∈ stack, isFloor g c ∧ c.1 % 2 = (startCell w h).1 % 2 ∧
      c.2 % 2 = (startCell w h).2 % 2) →
    (∀ c, isFloor g c → c.1 % 2 = (startCell w h).1 % 2 ∨
      c.2 % 2 = (startCell w h).2 % 2) →
    (∀ c, isFloor g c → c.1 % 2 ≠ (startCell w h).1 % 2 →
      1 ≤ c.1 ∧ isFloor g (c.1 - 1, c.2) ∧ isFloor g (c.1 + 1, c.2)) →
    (∀ c, isFloor g c → c.2 % 2 ≠ (startCell w h).2 % 2 →
      1 ≤ c.2 ∧ isFloor g (c.1, c.2 - 1) ∧ isFloor g (c.1, c.2 + 1)) →
    (∀ c, isFloor g c → Reach g c (startCell w h)) →
    (mazeGraph g).IsAcyclic →
    (∀ c, isFloor g2 c → Reach g2 c (startCell w h)) ∧ (mazeGraph g2).IsAcyclic := by
  intro fuel
  induction fuel with
  | zero => intro g stack r g2 r2 hc; simp [carveLoop] at hc
  | succ fuel ih =>
    intro g stack r g2 r2 hc hd hstack hP1 hP2H hP2V hPR hPA
    cases stack with
    | nil =>
      unfold carveLoop at hc
      simp only [Option.some.injEq, Prod.mk.injEq] at hc
      obtain ⟨rfl, rfl⟩ := hc
      exact ⟨hPR, hPA⟩
    | cons c rest =>
      unfold carveLoop at hc
      rcases hm : findMove w h g c.1 c.2 (shuffle4 r).1 with _ | ⟨mid, tgt⟩
      · simp only [hm] at hc
        exact ih _ _ _ _ _ hc hd (fun e he => hstack e (List.mem_cons_of_mem _ he))
          hP1 hP2H hP2V hPR hPA
      · simp only [hm] at hc
        obtain ⟨hwall, d, hcand⟩ := findMove_spec hm
        obtain ⟨hcf, hcx, hcy⟩ := hstack c (List.mem_cons_self ..)
        obtain ⟨htgtf, htx, hty, hP1n, hP2Hn, hP2Vn, hPRn, hPAn⟩ :=
          carve_step (startCell w h) c hd hcand hwall hcf hcx hcy hP1 hP2H hP2V hPR hPA
        have hdn : GridDims (setFloor (setFloor g mid) tgt) w h :=
          gridDims_setFloor (gridDims_setFloor hd mid) tgt
        have hsub : FloorSub g (setFloor (setFloor g mid) tgt) :=
          floorSub_trans (floorSub_setFloor g mid) (floorSub_setFloor _ tgt)
        refine ih _ _ _ _ _ hc hdn ?_ hP1n hP2Hn hP2Vn hPRn hPAn
        intro e he
        rcases List.mem_cons.mp he with rfl | he2
        · exact ⟨htgtf, htx, hty⟩
        · obtain ⟨hf, hx, hy⟩ := hstack e he2
          exact ⟨hsub _ hf, hx, hy⟩

/-- C2: immediately after the recursive-backtracking carving loop (before room
punching), for every width and height, the floor cells form a perfect maze:
the graph of floor cells under 4-directional adjacency is connected (every two
floor cells are joined by a flood fill) and acyclic, so there is exactly one
simple path between any two floor cells. -/
theorem c2_perfect_maze (w h : Nat) (r : Rng) (g2 : Grid) (r2 : Rng)
    (hc : carveLoop w h (carveFuel w h)
      (setFloor (List.replicate h (List.replicate w 1)) (startCell w h))
      [startCell w h] r = some (g2, r2)) :
    (∀ a b, isFloor g2 a → isFloor g2 b → Reach g2 a b) ∧
    (mazeGraph g2).IsAcyclic ∧
    ∀ a b, isFloor g2 a → isFloor g2 b → ∃! p : (mazeGraph g2).Walk a b, p.IsPath := by
  by_cases hwh : w = 0 ∨ h = 0
  · have hg2 := carveLoop_stuck hwh _ _ _ _ _ _ hc
    subst hg2
    have hnf : ∀ c, ¬ isFloor (setFloor (List.replicate h (List.replicate w 1))
        (startCell w h)) c := by
      intro c hcf
      have h1 := getCell_oob (c := c)
        (gridDims_setFloor (gridDims_replicate w h 1) (startCell w h)) (by omega)
      unfold isFloor at hcf
      omega
    exact ⟨fun a b ha hb => absurd ha (hnf a),
      isAcyclic_of_floor_subsingleton (fun a b ha hb => absurd ha (hnf a)),
      fun a b ha hb => absurd ha (hnf a)⟩
  · push_neg at hwh
    have hs0f : isFloor (setFloor (List.replicate h (List.replicate w 1)) (startCell w h))
        (startCell w h) :=
      getCell_setFloor_self_of_lt (gridDims_replicate w h 1)
        (by show w / 2 < w; omega) (by show h / 2 < h; omega)
    have hfl0 : ∀ c, isFloor (setFloor (List.replicate h (List.replicate w 1))
        (startCell w h)) c → c = startCell w h := by
      intro c hcf
      rcases isFloor_setFloor_elim hcf with h1 | h1
      · exact h1
      · exfalso
        unfold isFloor at h1
        rw [getCell_replicate] at h1
        omega
    obtain ⟨hreach, hac⟩ := carveLoop_invariant (carveFuel w h) _ _ _ _ _ hc
      (gridDims_setFloor (gridDims_replicate w h 1) _)
      (fun c hcm => by
        rw [List.mem_singleton.mp hcm]
        exact ⟨hs0f, rfl, rfl⟩)
      (fun c hcf => by rw [hfl0 c hcf]; exact Or.inl rfl)
      (fun c hcf hodd => absurd (by rw [hfl0 c hcf]) hodd)
      (fun c hcf hodd => absurd (by rw [hfl0 c hcf]) hodd)
      (fun c hcf => by rw [hfl0 c hcf]; exact reach_refl _ _)
      (isAcyclic_of_floor_subsingleton (fun a b ha hb => (hfl0 a ha).trans (hfl0 b hb).symm))
    refine ⟨fun a b ha hb => reach_trans (hreach a ha) (reach_symm (hreach b hb)), hac,
      fun a b ha hb => unique_path_of_acyclic hac (reach_reachable
        (reach_trans (hreach a ha) (reach_symm (hreach b hb))))⟩

/-- C2 witness: the carved grid of the concrete run is a perfect maze. -/
theorem c2_perfect_maze_witness :
    (∀ a b, isFloor gridCarveA a → isFloor gridCarveA b → Reach gridCarveA a b) ∧
    (mazeGraph gridCarveA).IsAcyclic ∧
    ∀ a b, isFloor gridCarveA a → isFloor gridCarveA b →
      ∃! p : (mazeGraph gridCarveA).Walk a b, p.IsPath :=
  c2_perfect_maze 21 16 ⟨wStream0, 0⟩ gridCarveA ⟨wStream0, 175⟩ carveLoop_runA

end ZombieMaze
